import Mathlib

/-!
Verification of the attention primitives of `src/models/components/primitives.py`.

Embedding conventions
=====================

* Tensors are modelled over `ℚ` (exact arithmetic).  The claims under study are
  all stated "under exact arithmetic", so machine floats are replaced by exact
  rationals.
* The exponential of the softmax is not rational, so every definition that
  involves a softmax is parametrised by a function `e : ℚ → ℚ` together with the
  two algebraic facts about the real exponential that the algorithms rely on:
  `e (x + y) = e x * e y` and `0 < e x`.  Theorems hold for every such `e`
  (in particular for the real exponential); executable witnesses instantiate
  `e` with the (trivially homomorphic and positive) constant function `1`.
* All operations of `_attention` and `_lma` act pointwise in the leading batch
  and head dimensions: `permute_final_dims (1, 0)`, `matmul`, `einsum
  "...hqd,...hkd->...hqk"`, the softmax over the last dimension, slicing of the
  last two dimensions, `torch.max` over the last dimension, `torch.stack`/`sum`
  over a fresh chunk dimension, and elementwise arithmetic all decompose into
  independent computations on the trailing `[rows, cols]` matrix of each
  batch-and-head slice.  The core model therefore works on one such slice,
  a matrix `Mat := List (List ℚ)` (outer list = rows = dim `-2`, inner list =
  cols = dim `-1`).  A rank-3 layer (`T3`, an explicit head dimension, needed
  by `Attention.forward`, `_attention_chunked_trainable` and the head
  broadcasting of biases) is built on top of it.
* Python slice notation `t[s : s + c]` on a list is exactly `(l.drop s).take c`
  (both clamp at the end of the axis), and `range(0, n, c)` is
  `List.range' 0 ((n + c - 1) / c) c`.
* Fallible tensor operations (broadcasting in `a += b`, `torch.stack` on an
  empty list, slice assignment with mismatched widths, `torch.cat` shape
  checks) are modelled with `Option`; a raised `RuntimeError`/`ValueError`
  becomes `none` (or an explicit error code in the `Except` model of
  `Attention.forward` and `_attention_chunked_trainable`, where the claims
  distinguish the individual errors).
-/

/-- One batch-and-head slice of a tensor: the trailing `[rows, cols]` matrix. -/
abbrev Mat : Type := List (List ℚ)

/-- Rank-3 tensor `[heads, rows, cols]` (one batch slice with explicit heads). -/
abbrev T3 : Type := List Mat

/-- Well-formedness: `m` is a rectangular `r × c` matrix. -/
def rect (m : Mat) (r c : Nat) : Prop := m.length = r ∧ ∀ row ∈ m, row.length = c

instance (m : Mat) (r c : Nat) : Decidable (rect m r c) :=
  decidable_of_iff (m.length = r ∧ ∀ row ∈ m, row.length = c) Iff.rfl

/-- Well-formedness of a rank-3 tensor: `a` matrices, each rectangular
`b × c`. -/
def rect3 (x : T3) (a b c : Nat) : Prop := x.length = a ∧ ∀ m ∈ x, rect m b c

instance (x : T3) (a b c : Nat) : Decidable (rect3 x a b c) :=
  decidable_of_iff (x.length = a ∧ ∀ m ∈ x, rect m b c) Iff.rfl

/-- Dot product of two equal-length vectors. -/
def dot (xs ys : List ℚ) : ℚ := (List.zipWith (· * ·) xs ys).sum

/-- `A · Bᵀ` : row `i` holds the dot products of row `i` of `A` with every row
of `B`.  This is `torch.matmul(A, Bᵀ)` and also the einsum
`"...hqd,...hkd->...hqk"` used by `_lma`. -/
def matmulRT (A B : Mat) : Mat := A.map fun r => B.map fun s => dot r s

/-- Transpose of the outer two list levels (for `α := List ℚ` this is
`permute_final_dims (x, (1, 0))` on a matrix; for `α := ℚ` it transposes a
matrix, and on `T3` it is `transpose(-2, -3)` of a rank-3 tensor). -/
def transposeLL {α : Type} [Inhabited α] (m : List (List α)) : List (List α) :=
  (List.range (m.headD []).length).map fun j => m.map fun r => r.getD j default

/-- `torch.matmul` of matrices: `matmul A B = A · B = A · (Bᵀ)ᵀ`. -/
def matmul (A B : Mat) : Mat := matmulRT A (transposeLL B)

/-- Broadcasting of one axis to length `n` (the rule torch applies, per axis,
to the right-hand side of an in-place `a += b` or of a slice assignment): an
axis of length `n` is kept, an axis of length 1 is replicated, anything else
is a shape error. -/
def bcastTo {α : Type} (n : Nat) (l : List α) : Option (List α) :=
  if l.length = n then some l
  else
    match l with
    | [x] => some (List.replicate n x)
    | _ => none

/-- One row of `a += b`: broadcast the bias row to the length of the logit row
and add pointwise. -/
def addBiasRow (ar br : List ℚ) : Option (List ℚ) :=
  (bcastTo ar.length br).map fun br2 => List.zipWith (· + ·) ar br2

/-- In-place `a += b` of `_attention`/`_lma` on one batch-and-head slice:
broadcast `b` over the row axis, then over the column axis of every row, and
add.  `none` models the `RuntimeError` torch raises when `b` does not
broadcast to the shape of `a`. -/
def addBias (a b : Mat) : Option Mat := do
  let rows ← bcastTo a.length b
  (List.zipWith addBiasRow a rows).mapM id

/-- The bias loop `for b in biases: a += b` of `_attention` (the
"BiasCombiner" of the spec).  The embedding is pure: the in-place adds of the
source mutate only the freshly computed logits buffer, never the inputs. -/
def addBiases (a : Mat) (bs : List Mat) : Option Mat :=
  bs.foldlM (fun acc b => addBias acc b) a

/-- Maximum of a row (`torch.max(_, dim=-1)`); the source only evaluates it on
nonempty rows, the `[]` case is arbitrary. -/
def rowMax : List ℚ → ℚ
  | [] => 0
  | x :: xs => xs.foldl max x

/-- Numerically-stable softmax of one row, as computed by
`torch.nn.functional.softmax(t, dim=-1)`: subtract the row maximum,
exponentiate, normalise. -/
def softmaxRow (e : ℚ → ℚ) (r : List ℚ) : List ℚ :=
  let m := rowMax r
  let ex := r.map fun x => e (x - m)
  ex.map fun x => x / ex.sum

/-- `softmax_no_cast(a, -1)`: softmax along the last dimension. -/
def softmaxMat (e : ℚ → ℚ) (a : Mat) : Mat := a.map (softmaxRow e)

/-- `_attention(query, key, value, biases)` on one batch-and-head slice:
`key` is transposed (`permute_final_dims(key, (1, 0))`), logits are
`query · keyᵀ`, biases are added in place, a softmax is taken along the key
axis, and the result multiplies `value`. -/
def attention (e : ℚ → ℚ) (q k v : Mat) (biases : List Mat) : Option Mat := do
  let a := matmulRT q k
  let a ← addBiases a biases
  let a := softmaxMat e a
  return matmul a v

/-- A trivial homomorphic positive "exponential", used to instantiate
executable witnesses (`1 = 1 * 1` and `0 < 1`). -/
def expOne : ℚ → ℚ := fun _ => 1

/-- The start offsets of python's `range(0, n, c)` (for `c = 0` python raises;
the model returns the empty list, which the consumers below turn into the same
failure the raised exception produces). -/
def chunkStarts (n c : Nat) : List Nat := List.range' 0 ((n + c - 1) / c) c

/-- Python slice `m[s : s + len]` along the row axis (dim `-2`). -/
def sliceRows (s len : Nat) (m : Mat) : Mat := (m.drop s).take len

/-- Python slice `m[..., s : s + len]` along the column axis (dim `-1`). -/
def sliceCols (s len : Nat) (m : Mat) : Mat := m.map fun r => (r.drop s).take len

/-- Pointwise fold of the rows of a matrix (used for `torch.max` / `torch.sum`
over the stacked chunk dimension `-3`, which reduce a `J × Q` stack to a
length-`Q` vector pointwise in `Q`). -/
def colFold (f : ℚ → ℚ → ℚ) : List (List ℚ) → List ℚ
  | [] => []
  | r :: rs => rs.foldl (List.zipWith f) r

/-- `torch.sum` of a stack of matrices along the stacking dimension. -/
def sumMats : List Mat → Mat
  | [] => []
  | m :: ms => ms.foldl (List.zipWith (List.zipWith (· + ·))) m

/-- The body of the inner key/value-chunk loop of `_lma`: partial logits by the
einsum `"...hqd,...hkd->...hqk"`, in-place addition of the sliced biases, the
per-row maximum `max_a`, the shifted exponentials `exp_a = exp(a - max_a)`, and
the chunk's value sum `exp_v` (einsum `"...hvf,...hqv->...hqf"`, i.e.
`exp_a · v_chunk`).  Returns the triple appended to `(maxes, weights, values)`:
the squeezed row maxima, the row sums of `exp_a`, and `exp_v`. -/
def lmaKvStep (e : ℚ → ℚ) (qChunk kChunk vChunk : Mat) (smallBiases : List Mat) :
    Option (List ℚ × List ℚ × Mat) := do
  let a := matmulRT qChunk kChunk
  let a ← addBiases a smallBiases
  let maxA := a.map rowMax
  let expA := List.zipWith (fun r m => r.map fun x => e (x - m)) a maxA
  let expV := matmul expA vChunk
  return (maxA, expA.map List.sum, expV)

/-- The inner loop `for kv_s in range(0, no_kv, kv_chunk_size)` of `_lma` for
one query chunk: slice `k`, `v` (rows, dim `-2`) and the already row-sliced
biases (cols, dim `-1`) and run `lmaKvStep` on each chunk. -/
def lmaKvStats (e : ℚ → ℚ) (qChunk k v : Mat) (bigBiases : List Mat)
    (kvChunkSize : Nat) : Option (List (List ℚ × List ℚ × Mat)) :=
  (chunkStarts k.length kvChunkSize).mapM fun s =>
    lmaKvStep e qChunk (sliceRows s kvChunkSize k) (sliceRows s kvChunkSize v)
      (bigBiases.map (sliceCols s kvChunkSize))

/-- `global_max = torch.max(chunk_max, dim=-3, keepdim=True)` of `_lma`:
the pointwise maximum of the stacked per-chunk row maxima. -/
def lmaGlobalMax (stats : List (List ℚ × List ℚ × Mat)) : List ℚ :=
  colFold max (stats.map fun t => t.1)

/-- `max_diffs = torch.exp(chunk_max - global_max)` of `_lma`. -/
def lmaMaxDiffs (e : ℚ → ℚ) (stats : List (List ℚ × List ℚ × Mat)) :
    List (List ℚ) :=
  (stats.map fun t => t.1).map fun mj =>
    List.zipWith (fun m M => e (m - M)) mj (lmaGlobalMax stats)

/-- `all_values = torch.sum(chunk_values * max_diffs.unsqueeze(-1), dim=-4)`
of `_lma`: every chunk's value matrix is rescaled row-wise by its max-diff and
the chunks are summed. -/
def lmaAllValues (e : ℚ → ℚ) (stats : List (List ℚ × List ℚ × Mat)) : Mat :=
  sumMats (List.zipWith
    (fun vj dj => List.zipWith (fun row d => row.map (· * d)) vj dj)
    (stats.map fun t => t.2.2) (lmaMaxDiffs e stats))

/-- `all_weights = torch.sum(chunk_weights * max_diffs, dim=-4)` of `_lma`. -/
def lmaAllWeights (e : ℚ → ℚ) (stats : List (List ℚ × List ℚ × Mat)) : List ℚ :=
  colFold (· + ·) (List.zipWith (List.zipWith (· * ·))
    (stats.map fun t => t.2.1) (lmaMaxDiffs e stats))

/-- The body of the outer query-chunk loop of `_lma` after the inner loop:
stack the recorded maxima/weights/values, apply the online-softmax correction
and divide, `q_chunk_out = all_values / all_weights`.  `torch.stack` of an
empty list (no key/value positions, or a zero chunk size) raises; this is the
`none` case. -/
def lmaQChunkOut (e : ℚ → ℚ) (qChunk k v : Mat) (bigBiases : List Mat)
    (kvChunkSize : Nat) : Option Mat := do
  let stats ← lmaKvStats e qChunk k v bigBiases kvChunkSize
  if stats.isEmpty then none
  else
    return List.zipWith (fun row w => row.map (· / w))
      (lmaAllValues e stats) (lmaAllWeights e stats)

/-- The slice assignment `o[..., s : s + len, :] = chunk`: the right-hand side
must broadcast (per row, with the torch rule `bcastTo`) to the shape of the
slice, which is then overwritten in place. -/
def writeSlice (o : Mat) (s len : Nat) (chunk : Mat) : Option Mat :=
  let tgt := (o.drop s).take len
  if chunk.length = tgt.length then
    ((List.zipWith (fun t c => bcastTo t.length c) tgt chunk).mapM id).map
      fun rows => o.take s ++ rows ++ o.drop (s + len)
  else none

/-- One iteration of the outer query-chunk loop of `_lma`: slice `q` and the
biases along the query axis (dim `-2`), run the online-softmax inner loop
over key/value chunks (`lmaQChunkOut`) and write the result into the slice
`o[..., q_s : q_s + q_chunk_size, :]` of the output buffer. -/
def lmaQStep (e : ℚ → ℚ) (q k v : Mat) (biases : List Mat)
    (qChunkSize kvChunkSize : Nat) (o : Mat) (s : Nat) : Option Mat := do
  let out ← lmaQChunkOut e (sliceRows s qChunkSize q) k v
    (biases.map (sliceRows s qChunkSize)) kvChunkSize
  writeSlice o s qChunkSize out

/-- `_lma` itself: the outer loop `for q_s in range(0, no_q, q_chunk_size)`
of `lmaQStep` bodies, folded over the fresh zero buffer
`o = q.new_zeros(q.shape)` (python raises for a zero step). -/
def lma (e : ℚ → ℚ) (q k v : Mat) (biases : List Mat)
    (qChunkSize kvChunkSize : Nat) : Option Mat :=
  if qChunkSize = 0 then none
  else
    (chunkStarts q.length qChunkSize).foldlM
      (lmaQStep e q k v biases qChunkSize kvChunkSize)
      (q.map fun r => r.map fun _ => (0 : ℚ))

/-- The pure value of the bias loop of `_attention` in the non-broadcasting
case: when every bias is exactly logit-shaped, `a += b` is a pointwise add.
Used to state what `_attention`/`_lma` compute; connected to `addBiases` by
`addBiases_full`. -/
def logits (q k : Mat) (bs : List Mat) : Mat :=
  bs.foldl (fun a b => List.zipWith (List.zipWith (· + ·)) a b) (matmulRT q k)

/-- One output row of `_attention`: the softmax of the logit row weighting the
rows of `value` (written as dot products with the columns of `value`). -/
def directRow (e : ℚ → ℚ) (r : List ℚ) (v : Mat) : List ℚ :=
  (transposeLL v).map (dot (softmaxRow e r))

/-- Column `f` of a matrix (the entries `directRow` dots against). -/
def colAt (m : Mat) (f : Nat) : List ℚ := m.map fun r => r.getD f default

/-- Row view of `_lma`'s rescaled numerator for one query row: logits row `a`,
value column `y`, kv-chunk size `c`, reference maximum `M`.  Each kv-chunk
contributes `exp(chunk_max - M) * (exp(chunk_logits - chunk_max) · y_chunk)`. -/
def lmaRowNum (e : ℚ → ℚ) (a y : List ℚ) (c : Nat) (M : ℚ) : ℚ :=
  ((chunkStarts a.length c).map fun s =>
    e (rowMax ((a.drop s).take c) - M) *
      dot (((a.drop s).take c).map fun x => e (x - rowMax ((a.drop s).take c)))
        ((y.drop s).take c)).sum

/-- Row view of `_lma`'s `all_weights` for one query row: each kv-chunk
contributes `exp(chunk_max - M) * sum(exp(chunk_logits - chunk_max))`. -/
def lmaRowDen (e : ℚ → ℚ) (a : List ℚ) (c : Nat) (M : ℚ) : ℚ :=
  ((chunkStarts a.length c).map fun s =>
    e (rowMax ((a.drop s).take c) - M) *
      (((a.drop s).take c).map fun x => e (x - rowMax ((a.drop s).take c))).sum).sum

/-- Row view of `_lma`'s `global_max` for one query row: the maximum of the
per-chunk maxima. -/
def rowGlobalMax (a : List ℚ) (c : Nat) : ℚ :=
  rowMax ((chunkStarts a.length c).map fun s => rowMax ((a.drop s).take c))

/-- The per-chunk row maxima recorded by `_lma`'s inner loop, expressed on the
full logit matrix `L`: chunk `s` records the row maxima of columns
`[s, s + kvc)` of `L`. -/
def lmaMs (L : Mat) (kvc s : Nat) : List ℚ := (sliceCols s kvc L).map rowMax

/-- The per-chunk unnormalised weights recorded by `_lma`'s inner loop,
expressed on the full logit matrix `L`. -/
def lmaWs (e : ℚ → ℚ) (L : Mat) (kvc s : Nat) : List ℚ :=
  (sliceCols s kvc L).map fun r => (r.map fun x => e (x - rowMax r)).sum

/-- The per-chunk weighted value sums recorded by `_lma`'s inner loop,
expressed on the full logit matrix `L` and the full value matrix `v`. -/
def lmaVs (e : ℚ → ℚ) (L v : Mat) (kvc s : Nat) : Mat :=
  (sliceCols s kvc L).map fun r =>
    (transposeLL (sliceRows s kvc v)).map (dot (r.map fun x => e (x - rowMax r)))

/-- Error taxonomy of the `Except`-valued models: the four `ValueError`s of
`Attention.forward`/`_deepspeed_evo_attn`, the `ValueError` of the
checkpointed `_attention_chunked_trainable`, and torch shape errors. -/
inductive AttnErr : Type
  | lmaChunk | multiStrategy | dsBiasCount | dsNotInstalled | ckptBias | shape
deriving DecidableEq

/-- Rank-3 tensors `[d0, d1, d2]`: python slice `x[idx]` with
`idx[chunkDim] = slice(s, s + len)` (used by `_attention_chunked_trainable`,
whose `idx` has `slice(None)` everywhere except `chunk_dim`). -/
def slice3 (d : Fin 3) (s len : Nat) (x : T3) : T3 :=
  match d with
  | 0 => (x.drop s).take len
  | 1 => x.map fun m => (m.drop s).take len
  | 2 => x.map fun m => m.map fun r => (r.drop s).take len

/-- `x.shape[d]` of a rank-3 tensor. -/
def shape3 (d : Fin 3) (x : T3) : Nat :=
  match d with
  | 0 => x.length
  | 1 => (x.headD []).length
  | 2 => ((x.headD []).headD []).length

/-- `torch.cat(chunks, dim=d)` on rank-3 tensors.  `torch.cat` of an empty
list raises; concatenation along an inner dimension requires the chunks to
agree on the outer dimensions (the remaining torch shape checks, which no
claim depends on, are elided). -/
def cat3 (d : Fin 3) : List T3 → Option T3
  | [] => none
  | c :: cs =>
    match d with
    | 0 => some ((c :: cs).flatten)
    | 1 =>
      if cs.all fun x => x.length = c.length then
        some (cs.foldl (List.zipWith (· ++ ·)) c)
      else none
    | 2 =>
      if cs.all fun x => x.length = c.length then
        some (cs.foldl (List.zipWith (List.zipWith (· ++ ·))) c)
      else none

/-- `_attention` on a rank-3 `[H, rows, cols]` tensor.  Every operation of
`_attention` acts pointwise in the head dimension, and the in-place `a += b`
broadcasts a bias whose head dimension is 1 over all heads; pre-broadcasting
the head axis (`bcastTo`) and mapping the slice computation over the heads is
value-equal to the vectorised source.  `none` models the shape errors
(mismatched head counts of q/k/v, non-broadcastable biases). -/
def attention3 (e : ℚ → ℚ) (q k v : T3) (biases : List T3) : Option T3 :=
  if k.length = q.length ∧ v.length = q.length then do
    let bs ← biases.mapM (bcastTo q.length)
    (List.range q.length).mapM fun h =>
      attention e (q.getD h []) (k.getD h []) (v.getD h [])
        (bs.map fun b => b.getD h [])
  else none

/-- `_lma` on a rank-3 `[H, rows, cols]` tensor; same head-pointwise
decomposition as `attention3` (the chunk slicing of `_lma` touches only the
last two dimensions and commutes with the head broadcast of the biases). -/
def lma3 (e : ℚ → ℚ) (q k v : T3) (biases : List T3)
    (qChunkSize kvChunkSize : Nat) : Option T3 :=
  if k.length = q.length ∧ v.length = q.length then do
    let bs ← biases.mapM (bcastTo q.length)
    (List.range q.length).mapM fun h =>
      lma e (q.getD h []) (k.getD h []) (v.getD h [])
        (bs.map fun b => b.getD h []) qChunkSize kvChunkSize
  else none

/-- `_attention_chunked_trainable(query, key, value, biases, chunk_size,
chunk_dim, checkpoint)` on rank-3 tensors.  The checkpointed path first
rejects more than two biases, then uses `(biases + [None, None])[:2]`
(`biases.take 2`); `checkpoint_fn` recomputes activations in the backward
pass but its forward value is that of the plain call, so both paths apply
`_attention` to each chunk.  Note that `query`, `key`, `value` and the
biases (except those of extent 1) are all sliced along `chunk_dim`, each
chunk output is transposed (`o_chunk.transpose(-2, -3)`), and the chunk
outputs are concatenated along `chunk_dim`. -/
def chunked3 (e : ℚ → ℚ) (checkpoint : Bool) (q k v : T3) (biases : List T3)
    (chunkSize : Nat) (chunkDim : Fin 3) : Except AttnErr T3 :=
  if checkpoint ∧ 2 < biases.length then .error .ckptBias
  else
    let oChunks : Option (List T3) :=
      (chunkStarts (shape3 chunkDim q) chunkSize).mapM fun s =>
        let bsel := if checkpoint then biases.take 2 else biases
        let bChunks := bsel.map fun b =>
          if shape3 chunkDim b ≠ 1 then slice3 chunkDim s chunkSize b else b
        (attention3 e (slice3 chunkDim s chunkSize q)
          (slice3 chunkDim s chunkSize k) (slice3 chunkDim s chunkSize v)
          bChunks).map transposeLL
    match oChunks with
    | some os =>
      match cat3 chunkDim os with
      | some o => .ok o
      | none => .error .shape
    | none => .error .shape

/-- The learned parameters of one `Attention` module: the weight matrices of
`linear_q/k/v` (bias-free), weight and bias of `linear_o`, and, when gating
is enabled, weight and bias of `linear_g`. -/
structure AttnWeights : Type where
  noHeads : Nat
  wq : Mat
  wk : Mat
  wv : Mat
  wo : Mat
  bo : List ℚ
  gate : Option (Mat × List ℚ)
deriving DecidableEq

/-- `x.view(x.shape[:-1] + (H, -1))` on one row: split a row of length
`H * C` into `H` chunks of length `C = len / H`. -/
def splitRow (csize : Nat) (r : List ℚ) : Mat :=
  (chunkStarts r.length csize).map fun s => (r.drop s).take csize

/-- `Attention._prep_qkv`: project with the bias-free `linear_q/k/v`
(`y = x · Wᵀ`), reshape `[rows, H * C] → [rows, H, C]`, transpose to
`[H, rows, C]`, and, when `apply_scale` is set, divide the query by
`math.sqrt(c_hidden)` — passed in as the parameter `sqrtC`, since the real
square root is not rational. -/
def prepQkv (W : AttnWeights) (sqrtC : ℚ) (qx kvx : Mat) (applyScale : Bool) :
    T3 × T3 × T3 :=
  let q := matmulRT qx W.wq
  let k := matmulRT kvx W.wk
  let v := matmulRT kvx W.wv
  let q := transposeLL (q.map fun r => splitRow (r.length / W.noHeads) r)
  let k := transposeLL (k.map fun r => splitRow (r.length / W.noHeads) r)
  let v := transposeLL (v.map fun r => splitRow (r.length / W.noHeads) r)
  let q := if applyScale then q.map fun m => m.map fun r => r.map (· / sqrtC)
           else q
  (q, k, v)

/-- `torch.sigmoid`, expressed through the exponential parameter. -/
def sigmoidQ (e : ℚ → ℚ) (x : ℚ) : ℚ := 1 / (1 + e (-x))

/-- `flatten_final_dims(o, 2)` on a `[rows, H, C]` tensor. -/
def flattenRows (x : T3) : Mat := x.map List.flatten

/-- `Attention._wrap_up`: optional sigmoid gate from the query input
(`linear_g`, with bias), elementwise product with the `[rows, H, C]` output,
flatten of the final two dimensions, and the output projection `linear_o`
(with bias). -/
def wrapUp (e : ℚ → ℚ) (W : AttnWeights) (o : T3) (qx : Mat) : Mat :=
  let o := match W.gate with
    | some (wg, bg) =>
      let g := ((matmulRT qx wg).map fun r => List.zipWith (· + ·) r bg).map
        fun r => r.map (sigmoidQ e)
      let g3 := g.map fun r => splitRow (r.length / W.noHeads) r
      List.zipWith (List.zipWith (List.zipWith (· * ·))) o g3
    | none => o
  (matmulRT (flattenRows o) W.wo).map fun r => List.zipWith (· + ·) r W.bo

/-- `b.expand(b.shape[:-2] + (Q,) + (K,))` on a rank-3 bias: the trailing two
dimensions must each equal the target or 1 (`torch.expand`); the head
dimension is left untouched. -/
def expandQK (Q K : Nat) (b : T3) : Option T3 :=
  b.mapM fun m => (bcastTo Q m).bind fun m2 => m2.mapM (bcastTo K)

/-- Events recorded by the trace model of `Attention.forward`: `prep q k v`
marks the execution of the numeric projections of `self._prep_qkv` (with the
tensors it produced). -/
inductive FwdEv : Type
  | prep (q k v : T3)
deriving DecidableEq

/-- Trace model of `Attention.forward`, following the source line by line:
the `use_lma` chunk-size check and the mutually-exclusive-strategy check; the
projections `q, k, v = self._prep_qkv(q_x, kv_x, apply_scale=not
use_deepspeed_evo_attention)` (recorded as a `prep` event); then the selected
strategy: the DeepSpeed path first rejects more than two biases, and
`_deepspeed_evo_attn` itself rejects a missing `deepspeed4science` runtime
(`dsInstalled`) before invoking the external kernel (abstracted as the
parameter `dsKernel`, which returns the `[rows, H, C]`-layout output the
source reshapes to); the LMA path expands every bias to full
`[q_x.shape[-2], kv_x.shape[-2]]` extent and transposes the result; the
default path calls `_attention` and transposes.  All paths end in
`self._wrap_up`.  Torch shape errors raised by the tensor work are `.shape`.
A `biases=None` call is the empty bias list. -/
def forwardEvents (e : ℚ → ℚ) (W : AttnWeights) (sqrtC : ℚ)
    (dsInstalled : Bool) (dsKernel : T3 → T3 → T3 → List T3 → T3)
    (qx kvx : Mat) (biases : List T3)
    (useDS useLMA : Bool) (qcs kvcs : Option Nat) :
    List FwdEv × Except AttnErr Mat :=
  if useLMA ∧ (qcs = none ∨ kvcs = none) then ([], .error .lmaChunk)
  else if 1 < (cond useDS 1 0) + (cond useLMA 1 0) then
    ([], .error .multiStrategy)
  else
    let p := prepQkv W sqrtC qx kvx (!useDS)
    let q := p.1
    let k := p.2.1
    let v := p.2.2
    let evs := [FwdEv.prep q k v]
    if useDS then
      if 2 < biases.length then (evs, .error .dsBiasCount)
      else if !dsInstalled then (evs, .error .dsNotInstalled)
      else (evs, .ok (wrapUp e W (dsKernel q k v biases) qx))
    else if useLMA then
      match biases.mapM (expandQK qx.length kvx.length) with
      | none => (evs, .error .shape)
      | some bs2 =>
        match lma3 e q k v bs2 (qcs.getD 0) (kvcs.getD 0) with
        | some o => (evs, .ok (wrapUp e W (transposeLL o) qx))
        | none => (evs, .error .shape)
    else
      match attention3 e q k v biases with
      | some o => (evs, .ok (wrapUp e W (transposeLL o) qx))
      | none => (evs, .error .shape)

/-- Pointwise sum of the rows of a matrix (`torch.sum(_, dim=-2)`). -/
def colSums (m : Mat) : List ℚ := colFold (· + ·) m

/-- The pooled query computed at the start of `GlobalAttention.forward`:
`q = torch.sum(m * mask.unsqueeze(-1), dim=-2) /
(torch.sum(mask, dim=-1)[..., None] + self.eps)` on one batch slice
(`m : [seq, C]`, `mask : [seq]`). -/
def globalPooledQuery (m : Mat) (mask : List ℚ) (eps : ℚ) : List ℚ :=
  (colSums (List.zipWith (fun row w => row.map (· * w)) m mask)).map
    fun x => x / (mask.sum + eps)

/-- The unweighted arithmetic mean over the sequence axis, as the claim words
it: the sum over positions divided by the number of positions. -/
def meanOverSeq (m : Mat) : List ℚ :=
  (colSums m).map fun x => x / (m.length : ℚ)

/-- The `(i, j)` entry of a bias matrix after broadcasting against the
`[Q, K]` logit shape, per the per-axis rule of `bcastTo`: an axis of extent 1
is read at index 0 (replication), any other axis at its own index. -/
def bcastEntry (b : Mat) (i j : Nat) : ℚ :=
  let row := b.getD (if b.length = 1 then 0 else i) []
  row.getD (if row.length = 1 then 0 else j) 0

example : attention expOne [[1], [0]] [[0], [0]] [[0], [1]] [] =
    some [[1/2], [1/2]] := by
  norm_num [attention, matmulRT, transposeLL, matmul, addBiases, softmaxMat,
    softmaxRow, rowMax, dot, expOne, List.range_succ, List.getD]

example : addBias [[1, 2], [3, 4]] [[10, 20]] = some [[11, 22], [13, 24]] := by
  norm_num [addBias, addBiasRow, bcastTo, List.mapM.loop, List.replicate]

example : addBias [[1, 2], [3, 4]] [[10, 20, 30]] = none := by
  norm_num [addBias, addBiasRow, bcastTo, List.mapM.loop, List.replicate]

/-! ### General helper lemmas -/

theorem mapM_eq_some_map {α β : Type} (f : α → Option β) (g : α → β) :
    ∀ l : List α, (∀ x ∈ l, f x = some (g x)) → l.mapM f = some (l.map g) := by
  intro l h
  induction l with
  | nil => rfl
  | cons a t ih =>
    rw [List.mapM_cons, h a (by simp)]
    rw [ih fun x hx => h x (by simp [hx])]
    rfl

theorem e_zero {e : ℚ → ℚ} (hexp : ∀ x y, e (x + y) = e x * e y)
    (hpos : ∀ x, 0 < e x) : e 0 = 1 := by
  have h := hexp 0 0
  rw [add_zero] at h
  nlinarith [hpos 0]

theorem dot_nil_left (ys : List ℚ) : dot [] ys = 0 := rfl

theorem dot_append {xs as : List ℚ} (ys bs : List ℚ) (h : xs.length = as.length) :
    dot (xs ++ ys) (as ++ bs) = dot xs as + dot ys bs := by
  simp [dot, List.zipWith_append _ _ _ _ _ h]

theorem dot_map_mul (c : ℚ) (xs ys : List ℚ) :
    dot (xs.map fun x => c * x) ys = c * dot xs ys := by
  induction xs generalizing ys with
  | nil => simp [dot]
  | cons x xt ih =>
    cases ys with
    | nil => simp [dot]
    | cons y yt => simp [dot] at ih ⊢; rw [ih]; ring

theorem dot_map_div (D : ℚ) (xs ys : List ℚ) :
    dot (xs.map fun x => x / D) ys = dot xs ys / D := by
  induction xs generalizing ys with
  | nil => simp [dot]
  | cons x xt ih =>
    cases ys with
    | nil => simp [dot]
    | cons y yt => simp [dot] at ih ⊢; rw [ih]; ring

theorem chunkStarts_nil (c : Nat) : chunkStarts 0 c = [] := by
  rcases c with _ | c
  · rfl
  · simp [chunkStarts, Nat.div_eq_of_lt (Nat.lt_succ_self c)]

theorem chunkStarts_cons {n c : Nat} (hc : 0 < c) (hn : 0 < n) :
    chunkStarts n c = 0 :: (chunkStarts (n - c) c).map fun s => c + s := by
  have key : (n + c - 1) / c = (n - c + c - 1) / c + 1 := by
    rcases le_or_lt n c with h | h
    · have h1 : n - c = 0 := by omega
      have h2 : (n + c - 1) / c = 1 := by
        apply Nat.div_eq_of_lt_le <;> omega
      have h3 : (0 + c - 1) / c = 0 := Nat.div_eq_of_lt (by omega)
      rw [h1, h2, h3]
    · have h4 : n + c - 1 = (n - c + c - 1) + c := by omega
      rw [h4, Nat.add_div_right _ hc]
  rw [chunkStarts, key, List.range'_succ, chunkStarts, List.map_add_range']
  norm_num

theorem mem_chunkStarts_lt {n c s : Nat} (hs : s ∈ chunkStarts n c) : s < n := by
  rw [chunkStarts, List.mem_range'] at hs
  obtain ⟨i, hi, rfl⟩ := hs
  rcases Nat.eq_zero_or_pos c with rfl | hc
  · simp at hi
  · have h1 : (i + 1) * c ≤ ((n + c - 1) / c) * c := Nat.mul_le_mul_right c hi
    have h2 : ((n + c - 1) / c) * c ≤ n + c - 1 := Nat.div_mul_le_self _ _
    have h3 : (i + 1) * c = i * c + c := by ring
    have h4 : c * i = i * c := by ring
    omega

theorem chunk_ne_nil {α : Type} {l : List α} {s c : Nat} (hc : 0 < c)
    (hs : s < l.length) : (l.drop s).take c ≠ [] := by
  have h : ((l.drop s).take c).length = min c (l.length - s) := by simp
  intro hnil
  rw [hnil] at h
  simp at h
  omega

theorem chunks_tile {α : Type} (c : Nat) (hc : 0 < c) :
    ∀ n (l : List α), l.length = n →
      ((chunkStarts l.length c).map fun s => (l.drop s).take c).flatten = l := by
  intro n
  induction n using Nat.strong_induction_on with
  | _ n ih =>
    intro l hl
    rcases Nat.eq_zero_or_pos l.length with h0 | h0
    · rw [h0, chunkStarts_nil]
      simpa using (List.length_eq_zero.mp h0).symm
    · rw [chunkStarts_cons hc h0]
      simp only [List.map_cons, List.map_map, List.flatten_cons, List.drop_zero]
      have hmapeq : List.map ((fun s => (l.drop s).take c) ∘ fun s => c + s)
            (chunkStarts (l.length - c) c)
          = List.map (fun s => ((l.drop c).drop s).take c)
            (chunkStarts (l.length - c) c) := by
        apply List.map_congr_left
        intro s _
        simp only [Function.comp_apply]
        rw [List.drop_drop]
      rw [hmapeq]
      have hlen2 : l.length - c = (l.drop c).length := by simp
      rw [hlen2, ih ((l.drop c).length) (by simp; omega) (l.drop c) rfl,
        List.take_append_drop]

theorem le_foldl_max : ∀ (xs : List ℚ) (a z : ℚ), z ∈ a :: xs → z ≤ xs.foldl max a := by
  intro xs
  induction xs with
  | nil =>
    intro a z hz
    simp at hz
    simp [hz]
  | cons y ys ih =>
    intro a z hz
    simp only [List.foldl_cons]
    rcases List.mem_cons.mp hz with rfl | hz2
    · exact le_trans (le_max_left z y) (ih (max z y) (max z y) (by simp))
    · rcases List.mem_cons.mp hz2 with rfl | hz3
      · exact le_trans (le_max_right a z) (ih (max a z) (max a z) (by simp))
      · exact ih (max a y) z (by simp [hz3])

theorem foldl_max_mem : ∀ (xs : List ℚ) (a : ℚ), xs.foldl max a ∈ a :: xs := by
  intro xs
  induction xs with
  | nil => intro a; simp
  | cons y ys ih =>
    intro a
    simp only [List.foldl_cons]
    have h := ih (max a y)
    rcases max_choice a y with h1 | h1 <;> rw [h1] at h ⊢ <;>
      rcases List.mem_cons.mp h with h2 | h2 <;> simp [h2]

theorem le_rowMax {l : List ℚ} {x : ℚ} (hx : x ∈ l) : x ≤ rowMax l := by
  match l with
  | a :: xs => exact le_foldl_max xs a x hx

theorem rowMax_mem {l : List ℚ} (hl : l ≠ []) : rowMax l ∈ l := by
  match l with
  | x :: xs => exact foldl_max_mem xs x

/-! ### Characterisation of bias addition and `_attention` for logit-shaped
biases -/

theorem bcastTo_of_len {α : Type} {l : List α} {n : Nat} (h : l.length = n) :
    bcastTo n l = some l := by simp [bcastTo, h]

theorem mapM_id_zipWith {α β γ : Type} (f : α → β → Option γ) (g : α → β → γ) :
    ∀ (a : List α) (b : List β), (∀ x ∈ a, ∀ y ∈ b, f x y = some (g x y)) →
      (List.zipWith f a b).mapM id = some (List.zipWith g a b) := by
  intro a
  induction a with
  | nil => intro b h; rfl
  | cons x xt ih =>
    intro b h
    cases b with
    | nil => rfl
    | cons y yt =>
      simp only [List.zipWith_cons_cons]
      rw [List.mapM_cons]
      simp only [id]
      rw [h x (by simp) y (by simp)]
      rw [ih yt fun x2 hx2 y2 hy2 => h x2 (by simp [hx2]) y2 (by simp [hy2])]
      rfl

theorem addBiasRow_full {ar br : List ℚ} (h : br.length = ar.length) :
    addBiasRow ar br = some (List.zipWith (· + ·) ar br) := by
  simp [addBiasRow, bcastTo_of_len h]

theorem addBias_full {a b : Mat} {Q K : Nat} (ha : rect a Q K) (hb : rect b Q K) :
    addBias a b = some (List.zipWith (fun r s => List.zipWith (· + ·) r s) a b) := by
  obtain ⟨haL, haR⟩ := ha
  obtain ⟨hbL, hbR⟩ := hb
  unfold addBias
  rw [bcastTo_of_len (by rw [haL, hbL])]
  simp only [Option.bind_eq_bind, Option.some_bind]
  exact mapM_id_zipWith _ _ a b fun x hx y hy =>
    addBiasRow_full (by rw [haR x hx, hbR y hy])

theorem rect_zipWith_add {a b : Mat} {Q K : Nat} (ha : rect a Q K)
    (hb : rect b Q K) :
    rect (List.zipWith (fun r s => List.zipWith (· + ·) r s) a b) Q K := by
  obtain ⟨haL, haR⟩ := ha
  obtain ⟨hbL, hbR⟩ := hb
  constructor
  · simp [haL, hbL]
  · intro row hrow
    rw [List.mem_iff_getElem] at hrow
    obtain ⟨i, hi, rfl⟩ := hrow
    rw [List.getElem_zipWith]
    have hia : i < a.length := by simp at hi; omega
    have hib : i < b.length := by simp at hi; omega
    simp only [List.length_zipWith]
    rw [haR _ (List.getElem_mem hia), hbR _ (List.getElem_mem hib)]
    simp

theorem addBiases_full {Q K : Nat} :
    ∀ (bs : List Mat) (a : Mat), rect a Q K → (∀ b ∈ bs, rect b Q K) →
      addBiases a bs =
        some (bs.foldl (fun x b => List.zipWith (fun r s => List.zipWith (· + ·) r s) x b) a) := by
  intro bs
  induction bs with
  | nil => intro a _ _; rfl
  | cons b t ih =>
    intro a ha hbs
    unfold addBiases at ih ⊢
    rw [List.foldlM_cons, addBias_full ha (hbs b (by simp))]
    simp only [Option.bind_eq_bind, Option.some_bind]
    exact ih _ (rect_zipWith_add ha (hbs b (by simp)))
      fun x hx => hbs x (by simp [hx])

theorem rect_matmulRT {q k : Mat} {Q K : Nat} (hq : q.length = Q)
    (hk : k.length = K) : rect (matmulRT q k) Q K := by
  constructor
  · simp [matmulRT, hq]
  · intro row hrow
    simp only [matmulRT, List.mem_map] at hrow
    obtain ⟨r, _, rfl⟩ := hrow
    simp [hk]

theorem rect_foldl_add {Q K : Nat} :
    ∀ (bs : List Mat) (a : Mat), rect a Q K → (∀ b ∈ bs, rect b Q K) →
      rect (bs.foldl (fun x b => List.zipWith (fun r s => List.zipWith (· + ·) r s) x b) a) Q K := by
  intro bs
  induction bs with
  | nil => intro a ha _; exact ha
  | cons b t ih =>
    intro a ha hbs
    exact ih _ (rect_zipWith_add ha (hbs b (by simp)))
      fun x hx => hbs x (by simp [hx])

theorem rect_logits {q k : Mat} {bs : List Mat} {Q K : Nat} (hq : q.length = Q)
    (hk : k.length = K) (hbs : ∀ b ∈ bs, rect b Q K) :
    rect (logits q k bs) Q K :=
  rect_foldl_add bs (matmulRT q k) (rect_matmulRT hq hk) hbs

theorem attention_eq_some {e : ℚ → ℚ} {q k v : Mat} {bs : List Mat} {L : Mat}
    (h : addBiases (matmulRT q k) bs = some L) :
    attention e q k v bs = some (L.map fun r => directRow e r v) := by
  show (addBiases (matmulRT q k) bs).bind (fun a => pure (matmul (softmaxMat e a) v)) =
    some (L.map fun r => directRow e r v)
  rw [h]
  simp only [Option.bind_eq_bind, Option.some_bind, softmaxMat, matmul,
    matmulRT, List.map_map, directRow]
  rfl

/-! ### Pointwise extraction of folds, and the online-softmax merge identity -/

theorem foldl_zipWith_length {α β : Type} (op : α → β → α) :
    ∀ (ms : List (List β)) (init : List α), (∀ m ∈ ms, init.length ≤ m.length) →
      (ms.foldl (List.zipWith op) init).length = init.length := by
  intro ms
  induction ms with
  | nil => intro init _; rfl
  | cons m t ih =>
    intro init h
    simp only [List.foldl_cons]
    have hlen : (List.zipWith op init m).length = init.length := by
      have := h m (by simp)
      simp
      omega
    rw [ih (List.zipWith op init m) fun m2 hm2 => by
      rw [hlen]; exact h m2 (by simp [hm2])]
    exact hlen

theorem foldl_zipWith_getD {α β : Type} (op : α → β → α) (d : α) (db : β) :
    ∀ (ms : List (List β)) (init : List α) (i : Nat), i < init.length →
      (∀ m ∈ ms, init.length ≤ m.length) →
      (ms.foldl (List.zipWith op) init).getD i d =
        ms.foldl (fun acc m => op acc (m.getD i db)) (init.getD i d) := by
  intro ms
  induction ms with
  | nil => intro init i _ _; rfl
  | cons m t ih =>
    intro init i hi h
    simp only [List.foldl_cons]
    have hm := h m (by simp)
    have hlen : (List.zipWith op init m).length = init.length := by simp; omega
    rw [ih (List.zipWith op init m) i (by rw [hlen]; exact hi)
      fun m2 hm2 => by rw [hlen]; exact h m2 (by simp [hm2])]
    congr 1
    rw [List.getD_eq_getElem _ _ (by rw [hlen]; exact hi), List.getElem_zipWith,
      List.getD_eq_getElem _ _ hi, List.getD_eq_getElem _ _ (lt_of_lt_of_le hi hm)]

theorem foldl_add_eq_sum {β : Type} (f : β → ℚ) :
    ∀ (l : List β) (b : ℚ), l.foldl (fun acc x => acc + f x) b = b + (l.map f).sum := by
  intro l
  induction l with
  | nil => intro b; simp
  | cons x t ih =>
    intro b
    simp only [List.foldl_cons, List.map_cons, List.sum_cons]
    rw [ih]
    ring

theorem getD_map {α β : Type} (f : α → β) {l : List α} {i : Nat}
    (h : i < l.length) (d : β) (d2 : α) :
    (l.map f).getD i d = f (l.getD i d2) := by
  rw [List.getD_eq_getElem _ _ (by simp [h]), List.getElem_map,
    List.getD_eq_getElem _ _ h]

theorem getD_zipWith {α β γ : Type} (f : α → β → γ) {la : List α} {lb : List β}
    {i : Nat} (ha : i < la.length) (hb : i < lb.length) (d : γ) (da : α) (db : β) :
    (List.zipWith f la lb).getD i d = f (la.getD i da) (lb.getD i db) := by
  rw [List.getD_eq_getElem _ _ (by simp; omega), List.getElem_zipWith,
    List.getD_eq_getElem _ _ ha, List.getD_eq_getElem _ _ hb]

theorem dot_take_add_drop (c : Nat) (w y : List ℚ) (hlen : y.length = w.length) :
    dot w y = dot (w.take c) (y.take c) + dot (w.drop c) (y.drop c) := by
  conv_lhs => rw [← List.take_append_drop c w, ← List.take_append_drop c y]
  exact dot_append _ _ (by simp [hlen])

theorem sum_dot_chunks (c : Nat) (hc : 0 < c) :
    ∀ n (w y : List ℚ), w.length = n → y.length = w.length →
      ((chunkStarts w.length c).map fun s =>
        dot ((w.drop s).take c) ((y.drop s).take c)).sum = dot w y := by
  intro n
  induction n using Nat.strong_induction_on with
  | _ n ih =>
    intro w y hw hlen
    rcases Nat.eq_zero_or_pos w.length with h0 | h0
    · rw [h0, chunkStarts_nil]
      have : w = [] := List.length_eq_zero.mp h0
      subst this
      simp [dot]
    · rw [chunkStarts_cons hc h0]
      simp only [List.map_cons, List.map_map, List.sum_cons, List.drop_zero]
      have hmapeq : List.map ((fun s => dot ((w.drop s).take c) ((y.drop s).take c)) ∘
            fun s => c + s) (chunkStarts (w.length - c) c)
          = List.map (fun s => dot (((w.drop c).drop s).take c)
              (((y.drop c).drop s).take c)) (chunkStarts (w.length - c) c) := by
        apply List.map_congr_left
        intro s _
        simp only [Function.comp_apply]
        rw [List.drop_drop, List.drop_drop]
      rw [hmapeq]
      have hlen2 : w.length - c = (w.drop c).length := by simp
      rw [hlen2, ih ((w.drop c).length) (by simp; omega) (w.drop c) (y.drop c) rfl
        (by simp [hlen])]
      exact (dot_take_add_drop c w y hlen).symm

theorem sum_sum_chunks (c : Nat) (hc : 0 < c) (w : List ℚ) :
    ((chunkStarts w.length c).map fun s => ((w.drop s).take c).sum).sum = w.sum := by
  conv_rhs => rw [← chunks_tile c hc w.length w rfl]
  rw [List.sum_flatten, List.map_map]
  rfl

theorem e_shift {e : ℚ → ℚ} (hexp : ∀ x y, e (x + y) = e x * e y)
    (m M x : ℚ) : e (m - M) * e (x - m) = e (x - M) := by
  rw [← hexp]
  congr 1
  ring

/-- The online-softmax merge identity: for any logits row `a`, value column
`y`, chunk size `c` and reference point `M`, the rescaled per-chunk sums of
`_lma` recombine to the softmax-weighted sum of `_attention`. -/
theorem online_merge {e : ℚ → ℚ} (hexp : ∀ x y, e (x + y) = e x * e y)
    (hpos : ∀ x, 0 < e x) (a y : List ℚ) (hy : y.length = a.length)
    (c : Nat) (hc : 0 < c) (M : ℚ) :
    ((chunkStarts a.length c).map fun s =>
        e (rowMax ((a.drop s).take c) - M) *
          dot (((a.drop s).take c).map fun x => e (x - rowMax ((a.drop s).take c)))
            ((y.drop s).take c)).sum
      /
    ((chunkStarts a.length c).map fun s =>
        e (rowMax ((a.drop s).take c) - M) *
          (((a.drop s).take c).map fun x => e (x - rowMax ((a.drop s).take c))).sum).sum
    = dot (softmaxRow e a) y := by
  have numerator : ((chunkStarts a.length c).map fun s =>
      e (rowMax ((a.drop s).take c) - M) *
        dot (((a.drop s).take c).map fun x => e (x - rowMax ((a.drop s).take c)))
          ((y.drop s).take c)).sum = dot (a.map fun x => e (x - M)) y := by
    have hterm : ∀ s, e (rowMax ((a.drop s).take c) - M) *
        dot (((a.drop s).take c).map fun x => e (x - rowMax ((a.drop s).take c)))
          ((y.drop s).take c)
        = dot (((a.map fun x => e (x - M)).drop s).take c) ((y.drop s).take c) := by
      intro s
      rw [← dot_map_mul, List.map_map]
      rw [← List.map_drop, ← List.map_take]
      congr 1
      apply List.map_congr_left
      intro x _
      simp only [Function.comp_apply]
      exact e_shift hexp _ M x
    calc ((chunkStarts a.length c).map fun s =>
        e (rowMax ((a.drop s).take c) - M) *
          dot (((a.drop s).take c).map fun x => e (x - rowMax ((a.drop s).take c)))
            ((y.drop s).take c)).sum
        = ((chunkStarts a.length c).map fun s =>
            dot (((a.map fun x => e (x - M)).drop s).take c) ((y.drop s).take c)).sum := by
          congr 1
          exact List.map_congr_left fun s _ => hterm s
      _ = dot (a.map fun x => e (x - M)) y := by
          have h1 : a.length = (a.map fun x => e (x - M)).length := by simp
          rw [h1]
          exact sum_dot_chunks c hc _ _ _ rfl (by simp [hy])
  have denominator : ((chunkStarts a.length c).map fun s =>
      e (rowMax ((a.drop s).take c) - M) *
        (((a.drop s).take c).map fun x => e (x - rowMax ((a.drop s).take c))).sum).sum
      = (a.map fun x => e (x - M)).sum := by
    have hterm : ∀ s, e (rowMax ((a.drop s).take c) - M) *
        (((a.drop s).take c).map fun x => e (x - rowMax ((a.drop s).take c))).sum
        = (((a.map fun x => e (x - M)).drop s).take c).sum := by
      intro s
      rw [← List.sum_map_mul_left, ← List.map_drop, ← List.map_take]
      congr 1
      apply List.map_congr_left
      intro x _
      exact e_shift hexp _ M x
    calc ((chunkStarts a.length c).map fun s =>
        e (rowMax ((a.drop s).take c) - M) *
          (((a.drop s).take c).map fun x => e (x - rowMax ((a.drop s).take c))).sum).sum
        = ((chunkStarts a.length c).map fun s =>
            (((a.map fun x => e (x - M)).drop s).take c).sum).sum := by
          congr 1
          exact List.map_congr_left fun s _ => hterm s
      _ = (a.map fun x => e (x - M)).sum := by
          have h1 : a.length = (a.map fun x => e (x - M)).length := by simp
          rw [h1]
          exact sum_sum_chunks c hc _
  rw [numerator, denominator]
  have hshift : (a.map fun x => e (x - M)) =
      (a.map fun x => e (x - rowMax a)).map fun t => e (rowMax a - M) * t := by
    rw [List.map_map]
    apply List.map_congr_left
    intro x _
    simp only [Function.comp_apply]
    exact (e_shift hexp _ M x).symm
  rw [hshift, dot_map_mul, List.sum_map_mul_left]
  simp only [softmaxRow]
  rw [dot_map_div]
  rw [mul_div_mul_left _ _ (hpos (rowMax a - M)).ne']
  congr 2
  exact List.map_id' _

/-! ### Slicing commutes with the logit computation -/

theorem slice_zipWith {α β γ : Type} (f : α → β → γ) (s c : Nat)
    (x : List α) (b : List β) :
    ((List.zipWith f x b).drop s).take c =
      List.zipWith f ((x.drop s).take c) ((b.drop s).take c) := by
  rw [List.drop_zipWith, List.take_zipWith]

theorem matmulRT_sliceRows (q k : Mat) (s c : Nat) :
    matmulRT (sliceRows s c q) k = sliceRows s c (matmulRT q k) := by
  unfold matmulRT sliceRows
  rw [← List.map_drop, ← List.map_take]

theorem matmulRT_sliceCols (q k : Mat) (s c : Nat) :
    matmulRT q (sliceRows s c k) = sliceCols s c (matmulRT q k) := by
  unfold matmulRT sliceCols sliceRows
  rw [List.map_map]
  apply List.map_congr_left
  intro r _
  simp only [Function.comp_apply]
  rw [← List.map_drop, ← List.map_take]

theorem sliceRows_zipWith_add (s c : Nat) (x b : Mat) :
    sliceRows s c (List.zipWith (fun r t => List.zipWith (· + ·) r t) x b) =
      List.zipWith (fun r t => List.zipWith (· + ·) r t)
        (sliceRows s c x) (sliceRows s c b) := by
  unfold sliceRows
  exact slice_zipWith _ s c x b

theorem sliceCols_zipWith_add (s c : Nat) (x b : Mat) :
    sliceCols s c (List.zipWith (fun r t => List.zipWith (· + ·) r t) x b) =
      List.zipWith (fun r t => List.zipWith (· + ·) r t)
        (sliceCols s c x) (sliceCols s c b) := by
  unfold sliceCols
  rw [List.map_zipWith, List.zipWith_map_left, List.zipWith_map_right]
  congr 1
  funext r t
  exact slice_zipWith _ s c r t

theorem foldl_add_slice (slice : Mat → Mat)
    (hslice : ∀ x b, slice (List.zipWith (fun r t => List.zipWith (· + ·) r t) x b) =
      List.zipWith (fun r t => List.zipWith (· + ·) r t) (slice x) (slice b)) :
    ∀ (bs : List Mat) (acc : Mat),
      (bs.map slice).foldl (fun x b => List.zipWith (fun r t => List.zipWith (· + ·) r t) x b) (slice acc) =
        slice (bs.foldl (fun x b => List.zipWith (fun r t => List.zipWith (· + ·) r t) x b) acc) := by
  intro bs
  induction bs with
  | nil => intro acc; rfl
  | cons b t ih =>
    intro acc
    simp only [List.map_cons, List.foldl_cons]
    rw [← hslice acc b]
    exact ih _

theorem logits_sliceRows (q k : Mat) (bs : List Mat) (s c : Nat) :
    logits (sliceRows s c q) k (bs.map (sliceRows s c)) =
      sliceRows s c (logits q k bs) := by
  unfold logits
  rw [matmulRT_sliceRows]
  exact foldl_add_slice _ (sliceRows_zipWith_add s c) bs _

theorem logits_sliceCols (q k : Mat) (bs : List Mat) (s c : Nat) :
    logits q (sliceRows s c k) (bs.map (sliceCols s c)) =
      sliceCols s c (logits q k bs) := by
  unfold logits
  rw [matmulRT_sliceCols]
  exact foldl_add_slice _ (sliceCols_zipWith_add s c) bs _

theorem rect_sliceCols {b : Mat} {Q K : Nat} (hb : rect b Q K) (s c : Nat) :
    rect (sliceCols s c b) Q (min c (K - s)) := by
  obtain ⟨hL, hR⟩ := hb
  constructor
  · simp [sliceCols, hL]
  · intro row hrow
    simp only [sliceCols, List.mem_map] at hrow
    obtain ⟨r, hr, rfl⟩ := hrow
    simp [hR r hr]

theorem chunkStarts_ne_nil {n c : Nat} (hc : 0 < c) (hn : 0 < n) :
    chunkStarts n c ≠ [] := by
  rw [chunkStarts_cons hc hn]
  simp

/-! ### Characterisation of the inner kv loop of `_lma` -/

theorem lmaKvStep_eq {e : ℚ → ℚ} {qch kch w : Mat} {sbs : List Mat}
    {Qc Kc : Nat} (hq : qch.length = Qc) (hk : kch.length = Kc)
    (hbs : ∀ b ∈ sbs, rect b Qc Kc) :
    lmaKvStep e qch kch w sbs =
      some ((logits qch kch sbs).map rowMax,
        (logits qch kch sbs).map fun r => (r.map fun x => e (x - rowMax r)).sum,
        (logits qch kch sbs).map fun r =>
          (transposeLL w).map (dot (r.map fun x => e (x - rowMax r)))) := by
  have hadd : addBiases (matmulRT qch kch) sbs = some (logits qch kch sbs) :=
    addBiases_full sbs _ (rect_matmulRT hq hk) hbs
  show (addBiases (matmulRT qch kch) sbs).bind (fun a =>
    pure (a.map rowMax,
      (List.zipWith (fun r m => r.map fun x => e (x - m)) a (a.map rowMax)).map List.sum,
      matmul (List.zipWith (fun r m => r.map fun x => e (x - m)) a (a.map rowMax)) w)) = _
  rw [hadd]
  simp only [Option.bind_eq_bind, Option.some_bind, List.zipWith_map_right,
    List.zipWith_same, matmul, matmulRT, List.map_map]
  rfl

theorem lmaKvStats_eq {e : ℚ → ℚ} {qch k v : Mat} {bs : List Mat}
    {Qc K d cv c : Nat}
    (hq : rect qch Qc d) (hk : rect k K d) (hv : rect v K cv)
    (hbs : ∀ b ∈ bs, rect b Qc K) :
    lmaKvStats e qch k v bs c =
      some ((chunkStarts K c).map fun s =>
        (lmaMs (logits qch k bs) c s,
         lmaWs e (logits qch k bs) c s,
         lmaVs e (logits qch k bs) v c s)) := by
  unfold lmaKvStats
  rw [hk.1]
  apply mapM_eq_some_map
  intro s hs
  have hkchunk : (sliceRows s c k).length = min c (K - s) := by
    simp [sliceRows, hk.1]
  have hstep := lmaKvStep_eq (e := e) (w := sliceRows s c v) hq.1 hkchunk
    (fun b hb => by
      obtain ⟨b0, hb0, rfl⟩ := List.mem_map.mp hb
      exact rect_sliceCols (hbs b0 hb0) s c)
  rw [hstep, logits_sliceCols]
  rfl

/-! ### Pointwise views of the `_lma` reductions -/

theorem zipWith_map_same {α β γ δ : Type} (g : β → γ → δ) (f1 : α → β)
    (f2 : α → γ) (l : List α) :
    List.zipWith g (l.map f1) (l.map f2) = l.map fun x => g (f1 x) (f2 x) := by
  rw [List.zipWith_map_left, List.zipWith_map_right, List.zipWith_same]

theorem transposeLL_length {α : Type} [Inhabited α] (m : List (List α)) :
    (transposeLL m).length = (m.headD []).length := by simp [transposeLL]

theorem transposeLL_getD {α : Type} [Inhabited α] (m : List (List α)) (j : Nat)
    (hj : j < (m.headD []).length) :
    (transposeLL m).getD j [] = m.map fun r => r.getD j default := by
  unfold transposeLL
  rw [List.getD_eq_getElem _ _ (by simpa using hj), List.getElem_map,
    List.getElem_range]

theorem sliceCols_getD {L : Mat} (s c i : Nat) (hi : i < L.length) :
    (sliceCols s c L).getD i [] = ((L.getD i []).drop s).take c :=
  getD_map _ hi [] []

theorem colAt_slice (v : Mat) (f s c : Nat) :
    colAt ((v.drop s).take c) f = ((colAt v f).drop s).take c := by
  unfold colAt
  rw [← List.map_drop, ← List.map_take]

theorem rect_sliceRows {v : Mat} {K cv : Nat} (hv : rect v K cv) (s c : Nat) :
    rect (sliceRows s c v) (min c (K - s)) cv := by
  constructor
  · simp [sliceRows, hv.1]
  · intro r hr
    exact hv.2 r (List.mem_of_mem_drop (List.mem_of_mem_take hr))

theorem rect_getD_length {m : Mat} {Q C i : Nat} (hm : rect m Q C) (hi : i < Q) :
    (m.getD i []).length = C := by
  have hi2 : i < m.length := by rw [hm.1]; exact hi
  rw [List.getD_eq_getElem _ _ hi2]
  exact hm.2 _ (List.getElem_mem hi2)

theorem rect_headD_length {m : Mat} {Q C : Nat} (hm : rect m Q C) (hQ : 0 < Q) :
    (m.headD []).length = C := by
  match m, hm with
  | r :: t, hm => exact hm.2 r (by simp)
  | [], hm =>
    have h0 : 0 = Q := by simpa using hm.1
    omega

theorem colFold_length (f : ℚ → ℚ → ℚ) (ms : List (List ℚ)) (n : Nat)
    (h : ∀ m ∈ ms, m.length = n) (hne : ms ≠ []) : (colFold f ms).length = n := by
  match ms with
  | m :: rest =>
    show (rest.foldl (List.zipWith f) m).length = n
    rw [foldl_zipWith_length f rest m fun m2 hm2 => by
      rw [h m (by simp), h m2 (by simp [hm2])]]
    exact h m (by simp)

theorem colFold_max_getD (ms : List (List ℚ)) (n : Nat)
    (h : ∀ m ∈ ms, m.length = n) (i : Nat) (hi : i < n) (d : ℚ) (hne : ms ≠ []) :
    (colFold max ms).getD i d = rowMax (ms.map fun m => m.getD i d) := by
  match ms with
  | m :: rest =>
    show (rest.foldl (List.zipWith max) m).getD i d = _
    rw [foldl_zipWith_getD max d d rest m i (by rw [h m (by simp)]; exact hi)
      fun m2 hm2 => by rw [h m (by simp), h m2 (by simp [hm2])]]
    show _ = rowMax (m.getD i d :: rest.map fun m2 => m2.getD i d)
    show _ = (rest.map fun m2 => m2.getD i d).foldl max (m.getD i d)
    rw [List.foldl_map]

theorem colFold_add_getD (ms : List (List ℚ)) (n : Nat)
    (h : ∀ m ∈ ms, m.length = n) (i : Nat) (hi : i < n) (hne : ms ≠ []) :
    (colFold (· + ·) ms).getD i 0 = (ms.map fun m => m.getD i 0).sum := by
  match ms with
  | m :: rest =>
    show (rest.foldl (List.zipWith (· + ·)) m).getD i 0 = _
    rw [foldl_zipWith_getD (· + ·) 0 0 rest m i (by rw [h m (by simp)]; exact hi)
      fun m2 hm2 => by rw [h m (by simp), h m2 (by simp [hm2])]]
    rw [foldl_add_eq_sum (fun m2 : List ℚ => m2.getD i 0) rest (m.getD i 0)]
    simp

theorem sumMats_length (ms : List Mat) {Q C : Nat}
    (h : ∀ m ∈ ms, rect m Q C) (hne : ms ≠ []) : (sumMats ms).length = Q := by
  match ms with
  | m :: rest =>
    show (rest.foldl (List.zipWith fun r t => List.zipWith (· + ·) r t) m).length = Q
    rw [foldl_zipWith_length _ rest m fun m2 hm2 => by
      rw [(h m (by simp)).1, (h m2 (by simp [hm2])).1]]
    exact (h m (by simp)).1

theorem sumMats_getD_entry (ms : List Mat) {Q C : Nat}
    (h : ∀ m ∈ ms, rect m Q C) (hne : ms ≠ []) (i f : Nat) (hi : i < Q)
    (hf : f < C) :
    (((sumMats ms).getD i []).getD f 0) =
      (ms.map fun m => ((m.getD i []).getD f 0)).sum := by
  match ms with
  | m :: rest =>
    show (((rest.foldl (List.zipWith fun r t => List.zipWith (· + ·) r t) m).getD i []).getD f 0) = _
    rw [foldl_zipWith_getD _ [] [] rest m i (by rw [(h m (by simp)).1]; exact hi)
      fun m2 hm2 => by rw [(h m (by simp)).1, (h m2 (by simp [hm2])).1]]
    rw [← List.foldl_map (fun m2 : Mat => m2.getD i []) (List.zipWith (· + ·))]
    rw [foldl_zipWith_getD (· + ·) 0 0 (rest.map fun m2 => m2.getD i [])
      (m.getD i []) f
      (by rw [rect_getD_length (h m (by simp)) hi]; exact hf)
      (fun r2 hr2 => by
        obtain ⟨m2, hm2, rfl⟩ := List.mem_map.mp hr2
        rw [rect_getD_length (h m (by simp)) hi,
          rect_getD_length (h m2 (by simp [hm2])) hi])]
    rw [List.foldl_map]
    rw [foldl_add_eq_sum (fun m2 : Mat => ((m2.getD i []).getD f 0)) rest
      (((m.getD i []).getD f 0))]
    simp

/-! ### Entrywise values of `_lma`'s global accumulators -/

theorem lmaMs_length (L : Mat) (kvc s : Nat) : (lmaMs L kvc s).length = L.length := by
  simp [lmaMs, sliceCols]

theorem lmaWs_length (e : ℚ → ℚ) (L : Mat) (kvc s : Nat) :
    (lmaWs e L kvc s).length = L.length := by
  simp [lmaWs, sliceCols]

theorem lmaVs_length (e : ℚ → ℚ) (L v : Mat) (kvc s : Nat) :
    (lmaVs e L v kvc s).length = L.length := by
  simp [lmaVs, sliceCols]

theorem lmaVs_rect {e : ℚ → ℚ} {L v : Mat} {Qc K cv : Nat} (hL : rect L Qc K)
    (hv : rect v K cv) {kvc s : Nat} (hs : s < K) (hkc : 0 < kvc) :
    rect (lmaVs e L v kvc s) Qc cv := by
  constructor
  · rw [lmaVs_length]
    exact hL.1
  · intro r hr
    unfold lmaVs at hr
    obtain ⟨r0, _, rfl⟩ := List.mem_map.mp hr
    have hchunk : rect (sliceRows s kvc v) (min kvc (K - s)) cv :=
      rect_sliceRows hv s kvc
    simp only [List.length_map, transposeLL_length]
    exact rect_headD_length hchunk (by omega)

theorem lmaMs_getD {L : Mat} (kvc s i : Nat) (hi : i < L.length) :
    (lmaMs L kvc s).getD i 0 = rowMax (((L.getD i []).drop s).take kvc) := by
  unfold lmaMs
  rw [getD_map _ (by simp [sliceCols]; exact hi) 0 [], sliceCols_getD _ _ _ hi]

theorem lmaWs_getD {e : ℚ → ℚ} {L : Mat} (kvc s i : Nat) (hi : i < L.length) :
    (lmaWs e L kvc s).getD i 0 =
      ((((L.getD i []).drop s).take kvc).map fun x =>
        e (x - rowMax (((L.getD i []).drop s).take kvc))).sum := by
  unfold lmaWs
  rw [getD_map _ (by simp [sliceCols]; exact hi) 0 [], sliceCols_getD _ _ _ hi]

theorem lmaVs_getD_entry {e : ℚ → ℚ} {L v : Mat} {Qc K cv : Nat}
    (hL : rect L Qc K) (hv : rect v K cv) {kvc s i f : Nat} (hs : s < K)
    (hkc : 0 < kvc) (hi : i < Qc) (hf : f < cv) :
    ((lmaVs e L v kvc s).getD i []).getD f 0 =
      dot ((((L.getD i []).drop s).take kvc).map fun x =>
          e (x - rowMax (((L.getD i []).drop s).take kvc)))
        (((colAt v f).drop s).take kvc) := by
  have hiL : i < L.length := by rw [hL.1]; exact hi
  have hchunk : rect (sliceRows s kvc v) (min kvc (K - s)) cv :=
    rect_sliceRows hv s kvc
  have hwidth : ((sliceRows s kvc v).headD []).length = cv :=
    rect_headD_length hchunk (by omega)
  unfold lmaVs
  rw [getD_map _ (by simp [sliceCols]; exact hiL) [] [],
    sliceCols_getD _ _ _ hiL]
  rw [getD_map _ (by rw [transposeLL_length, hwidth]; exact hf) 0 []]
  rw [transposeLL_getD _ f (by rw [hwidth]; exact hf)]
  show dot _ (colAt (sliceRows s kvc v) f) = _
  unfold sliceRows
  rw [colAt_slice]

theorem lmaG_getD {e : ℚ → ℚ} {L v : Mat} {Qc K c : Nat}
    (hL : rect L Qc K) (hK : 0 < K) (hkc : 0 < c) (i : Nat) (hi : i < Qc) :
    (lmaGlobalMax ((chunkStarts K c).map fun s =>
        (lmaMs L c s, lmaWs e L c s, lmaVs e L v c s))).getD i 0 =
      rowGlobalMax (L.getD i []) c := by
  have hJne := chunkStarts_ne_nil hkc hK
  unfold lmaGlobalMax
  rw [List.map_map]
  rw [colFold_max_getD _ Qc (fun m hm => by
      obtain ⟨s, _, rfl⟩ := List.mem_map.mp hm
      show (lmaMs L c s).length = Qc
      rw [lmaMs_length, hL.1]) i hi 0 (by simp [hJne])]
  rw [List.map_map]
  unfold rowGlobalMax
  rw [rect_getD_length hL hi]
  congr 1
  apply List.map_congr_left
  intro s _
  show (lmaMs L c s).getD i 0 = _
  rw [lmaMs_getD c s i (by rw [hL.1]; exact hi)]

theorem lmaG_length {e : ℚ → ℚ} {L v : Mat} {Qc K c : Nat}
    (hL : rect L Qc K) (hK : 0 < K) (hkc : 0 < c) :
    (lmaGlobalMax ((chunkStarts K c).map fun s =>
        (lmaMs L c s, lmaWs e L c s, lmaVs e L v c s))).length = Qc := by
  have hJne := chunkStarts_ne_nil hkc hK
  unfold lmaGlobalMax
  rw [List.map_map]
  rw [colFold_length _ _ Qc (fun m hm => by
      obtain ⟨s, _, rfl⟩ := List.mem_map.mp hm
      show (lmaMs L c s).length = Qc
      rw [lmaMs_length, hL.1]) (by simp [hJne])]

theorem sumMats_getD_length (ms : List Mat) {Q C : Nat}
    (h : ∀ m ∈ ms, rect m Q C) (hne : ms ≠ []) (i : Nat) (hi : i < Q) :
    ((sumMats ms).getD i []).length = C := by
  match ms with
  | m :: rest =>
    show ((rest.foldl (List.zipWith fun r t => List.zipWith (· + ·) r t) m).getD i []).length = C
    rw [foldl_zipWith_getD _ [] [] rest m i (by rw [(h m (by simp)).1]; exact hi)
      fun m2 hm2 => by rw [(h m (by simp)).1, (h m2 (by simp [hm2])).1]]
    rw [← List.foldl_map (fun m2 : Mat => m2.getD i []) (List.zipWith (· + ·))]
    rw [foldl_zipWith_length (· + ·) (rest.map fun m2 => m2.getD i [])
      (m.getD i [])
      (fun r2 hr2 => by
        obtain ⟨m2, hm2, rfl⟩ := List.mem_map.mp hr2
        rw [rect_getD_length (h m (by simp)) hi,
          rect_getD_length (h m2 (by simp [hm2])) hi])]
    exact rect_getD_length (h m (by simp)) hi

theorem rect_sumMats (ms : List Mat) {Q C : Nat}
    (h : ∀ m ∈ ms, rect m Q C) (hne : ms ≠ []) : rect (sumMats ms) Q C := by
  have hlen := sumMats_length ms h hne
  constructor
  · exact hlen
  · intro row hrow
    rw [List.mem_iff_getElem] at hrow
    obtain ⟨i, hi, rfl⟩ := hrow
    rw [← List.getD_eq_getElem _ [] hi]
    exact sumMats_getD_length ms h hne i (by omega)

theorem rect_rowScale {A : Mat} {B : List ℚ} {Q C : Nat} (hA : rect A Q C)
    (hB : B.length = Q) :
    rect (List.zipWith (fun row dd => row.map (· * dd)) A B) Q C := by
  constructor
  · simp [hA.1, hB]
  · intro row hrow
    rw [List.mem_iff_getElem] at hrow
    obtain ⟨i, hi, rfl⟩ := hrow
    rw [List.getElem_zipWith]
    simp only [List.length_map]
    have hiA : i < A.length := by simp at hi; omega
    exact hA.2 _ (List.getElem_mem hiA)

theorem lmaAW_entry {e : ℚ → ℚ} {L v : Mat} {Qc K cv kvc : Nat}
    (hL : rect L Qc K) (hv : rect v K cv) (hK : 0 < K) (hkc : 0 < kvc)
    (i : Nat) (hi : i < Qc) :
    (lmaAllWeights e ((chunkStarts K kvc).map fun s =>
        (lmaMs L kvc s, lmaWs e L kvc s, lmaVs e L v kvc s))).getD i 0 =
      lmaRowDen e (L.getD i []) kvc (rowGlobalMax (L.getD i []) kvc) := by
  have hJne := chunkStarts_ne_nil hkc hK
  have hiL : i < L.length := by rw [hL.1]; exact hi
  have hGlen := lmaG_length (e := e) (v := v) (c := kvc) hL hK hkc
  have hGget := lmaG_getD (e := e) (v := v) (c := kvc) hL hK hkc i hi
  unfold lmaAllWeights lmaMaxDiffs
  simp only [List.map_map]
  rw [zipWith_map_same]
  rw [colFold_add_getD _ Qc (fun m hm => by
      obtain ⟨s, _, rfl⟩ := List.mem_map.mp hm
      simp only [Function.comp_apply, List.length_zipWith]
      rw [lmaWs_length, lmaMs_length, hL.1, hGlen]
      omega) i hi (by simp [hJne])]
  rw [List.map_map]
  unfold lmaRowDen
  rw [rect_getD_length hL hi]
  congr 1
  apply List.map_congr_left
  intro s hs
  simp only [Function.comp_apply]
  rw [getD_zipWith (· * ·) (by rw [lmaWs_length, hL.1]; exact hi)
    (by simp only [List.length_zipWith]; rw [lmaMs_length, hL.1, hGlen]; omega) 0 0 0]
  rw [getD_zipWith _ (by rw [lmaMs_length, hL.1]; exact hi)
    (by rw [hGlen]; exact hi) 0 0 0]
  rw [lmaWs_getD kvc s i hiL, lmaMs_getD kvc s i hiL, hGget]
  ring

theorem lmaAV_entry {e : ℚ → ℚ} {L v : Mat} {Qc K cv kvc : Nat}
    (hL : rect L Qc K) (hv : rect v K cv) (hK : 0 < K) (hkc : 0 < kvc)
    (i f : Nat) (hi : i < Qc) (hf : f < cv) :
    ((lmaAllValues e ((chunkStarts K kvc).map fun s =>
        (lmaMs L kvc s, lmaWs e L kvc s, lmaVs e L v kvc s))).getD i []).getD f 0 =
      lmaRowNum e (L.getD i []) (colAt v f) kvc
        (rowGlobalMax (L.getD i []) kvc) := by
  have hJne := chunkStarts_ne_nil hkc hK
  have hiL : i < L.length := by rw [hL.1]; exact hi
  have hGlen := lmaG_length (e := e) (v := v) (c := kvc) hL hK hkc
  have hGget := lmaG_getD (e := e) (v := v) (c := kvc) hL hK hkc i hi
  unfold lmaAllValues lmaMaxDiffs
  simp only [List.map_map]
  rw [zipWith_map_same]
  rw [sumMats_getD_entry _ (fun m hm => by
      obtain ⟨s, hsJ, rfl⟩ := List.mem_map.mp hm
      have hsK : s < K := mem_chunkStarts_lt hsJ
      simp only [Function.comp_apply]
      exact rect_rowScale (lmaVs_rect hL hv hsK hkc) (by
        simp only [List.length_zipWith]
        rw [lmaMs_length, hL.1, hGlen]
        omega)) (by simp [hJne]) i f hi hf]
  rw [List.map_map]
  unfold lmaRowNum
  rw [rect_getD_length hL hi]
  congr 1
  apply List.map_congr_left
  intro s hs
  have hsK : s < K := mem_chunkStarts_lt hs
  simp only [Function.comp_apply]
  rw [getD_zipWith _ (by rw [lmaVs_length, hL.1]; exact hi)
    (by simp only [List.length_zipWith]; rw [lmaMs_length, hL.1, hGlen]; omega)
    [] [] 0]
  rw [getD_map _ (by
      rw [rect_getD_length (lmaVs_rect hL hv hsK hkc) hi]
      exact hf) 0 0]
  rw [lmaVs_getD_entry hL hv hsK hkc hi hf]
  rw [getD_zipWith _ (by rw [lmaMs_length, hL.1]; exact hi)
    (by rw [hGlen]; exact hi) 0 0 0]
  rw [lmaMs_getD kvc s i hiL, hGget]
  ring

theorem lmaAW_length {e : ℚ → ℚ} {L v : Mat} {Qc K cv c : Nat}
    (hL : rect L Qc K) (hv : rect v K cv) (hK : 0 < K) (hkc : 0 < c) :
    (lmaAllWeights e ((chunkStarts K c).map fun s =>
        (lmaMs L c s, lmaWs e L c s, lmaVs e L v c s))).length = Qc := by
  have hJne := chunkStarts_ne_nil hkc hK
  have hGlen := lmaG_length (e := e) (v := v) (c := c) hL hK hkc
  unfold lmaAllWeights lmaMaxDiffs
  simp only [List.map_map]
  rw [zipWith_map_same]
  rw [colFold_length _ _ Qc (fun m hm => by
      obtain ⟨s, _, rfl⟩ := List.mem_map.mp hm
      simp only [Function.comp_apply, List.length_zipWith]
      rw [lmaWs_length, lmaMs_length, hL.1, hGlen]
      omega) (by simp [hJne])]

theorem lmaAV_rect {e : ℚ → ℚ} {L v : Mat} {Qc K cv c : Nat}
    (hL : rect L Qc K) (hv : rect v K cv) (hK : 0 < K) (hkc : 0 < c) :
    rect (lmaAllValues e ((chunkStarts K c).map fun s =>
        (lmaMs L c s, lmaWs e L c s, lmaVs e L v c s))) Qc cv := by
  have hJne := chunkStarts_ne_nil hkc hK
  have hGlen := lmaG_length (e := e) (v := v) (c := c) hL hK hkc
  unfold lmaAllValues lmaMaxDiffs
  simp only [List.map_map]
  rw [zipWith_map_same]
  exact rect_sumMats _ (fun m hm => by
      obtain ⟨s, hsJ, rfl⟩ := List.mem_map.mp hm
      have hsK : s < K := mem_chunkStarts_lt hsJ
      simp only [Function.comp_apply]
      exact rect_rowScale (lmaVs_rect hL hv hsK hkc) (by
        simp only [List.length_zipWith]
        rw [lmaMs_length, hL.1, hGlen]
        omega)) (by simp [hJne])

theorem lmaRow_div_eq {e : ℚ → ℚ} (hexp : ∀ x y, e (x + y) = e x * e y)
    (hpos : ∀ x, 0 < e x) (a y : List ℚ) (hy : y.length = a.length)
    (c : Nat) (hc : 0 < c) (M : ℚ) :
    lmaRowNum e a y c M / lmaRowDen e a c M = dot (softmaxRow e a) y := by
  unfold lmaRowNum lmaRowDen
  exact online_merge hexp hpos a y hy c hc M

theorem lmaQChunkOut_eq {e : ℚ → ℚ} (hexp : ∀ x y, e (x + y) = e x * e y)
    (hpos : ∀ x, 0 < e x) {qch k v : Mat} {bs : List Mat}
    {Qc K d cv kvc : Nat} (hq : rect qch Qc d) (hk : rect k K d)
    (hv : rect v K cv) (hbs : ∀ b ∈ bs, rect b Qc K) (hK : 0 < K)
    (hkc : 0 < kvc) :
    lmaQChunkOut e qch k v bs kvc =
      some ((logits qch k bs).map fun r => directRow e r v) := by
  have hstats := lmaKvStats_eq (e := e) (c := kvc) hq hk hv hbs
  have hLrect : rect (logits qch k bs) Qc K := rect_logits hq.1 hk.1 hbs
  have hJne := chunkStarts_ne_nil hkc hK
  have hAWlen := lmaAW_length (e := e) (c := kvc) hLrect hv hK hkc
  have hAVrect := lmaAV_rect (e := e) (c := kvc) hLrect hv hK hkc
  unfold lmaQChunkOut
  rw [hstats]
  simp only [Option.bind_eq_bind, Option.some_bind]
  rw [if_neg (by simp [List.isEmpty_iff, hJne])]
  congr 1
  apply List.ext_getElem
  · simp only [List.length_zipWith, List.length_map]
    rw [hAVrect.1, hAWlen, hLrect.1]
    omega
  · intro n h1 h2
    have hn : n < Qc := by
      simp only [List.length_map] at h2
      rw [hLrect.1] at h2
      exact h2
    rw [List.getElem_zipWith, List.getElem_map]
    rw [← List.getD_eq_getElem (d := []) _ (by rw [hAVrect.1]; exact hn),
      ← List.getD_eq_getElem (d := 0) _ (by rw [hAWlen]; exact hn),
      ← List.getD_eq_getElem (d := []) _ (by rw [hLrect.1]; exact hn)]
    apply List.ext_getElem
    · simp only [List.length_map]
      rw [rect_getD_length hAVrect hn]
      unfold directRow
      rw [List.length_map, transposeLL_length, rect_headD_length hv hK]
    · intro f hf1 hf2
      have hfcv : f < cv := by
        simp only [List.length_map] at hf1
        rw [rect_getD_length hAVrect hn] at hf1
        exact hf1
      rw [List.getElem_map]
      unfold directRow
      rw [List.getElem_map]
      rw [← List.getD_eq_getElem (d := 0) _ (by
          rw [rect_getD_length hAVrect hn]
          exact hfcv)]
      rw [← List.getD_eq_getElem (d := []) (transposeLL v) (by
          rw [transposeLL_length, rect_headD_length hv hK]
          exact hfcv)]
      rw [transposeLL_getD _ f (by rw [rect_headD_length hv hK]; exact hfcv)]
      rw [lmaAV_entry hLrect hv hK hkc n f hn hfcv,
        lmaAW_entry hLrect hv hK hkc n hn]
      exact lmaRow_div_eq hexp hpos _ _ (by
          simp only [colAt, List.length_map]
          rw [hv.1, rect_getD_length hLrect hn]) kvc hkc _

/-! ### Assembly of `_lma`'s outer query-chunk loop -/

theorem zipWith_const_right {α β : Type} :
    ∀ (l1 : List α) (l2 : List β), l2.length = l1.length →
      List.zipWith (fun _ b => b) l1 l2 = l2 := by
  intro l1
  induction l1 with
  | nil =>
    intro l2 h
    simp at h
    simp [h]
  | cons x t ih =>
    intro l2 h
    cases l2 with
    | nil => simp at h
    | cons y t2 =>
      simp only [List.zipWith_cons_cons, List.cons.injEq]
      exact ⟨trivial, ih t2 (by simpa using h)⟩

theorem writeSlice_full {o chunk : Mat} {s len d : Nat}
    (h1 : chunk.length = ((o.drop s).take len).length)
    (h2 : ∀ t ∈ (o.drop s).take len, t.length = d)
    (h3 : ∀ c ∈ chunk, c.length = d) :
    writeSlice o s len chunk = some (o.take s ++ chunk ++ o.drop (s + len)) := by
  unfold writeSlice
  rw [if_pos h1]
  rw [mapM_id_zipWith _ (fun _ c => c) _ _ fun t ht c hc =>
    bcastTo_of_len (by rw [h2 t ht, h3 c hc])]
  rw [zipWith_const_right _ _ h1]
  rfl

theorem sliceRows_shift (q : Mat) (qc s : Nat) :
    sliceRows (qc + s) qc q = sliceRows s qc (q.drop qc) := by
  unfold sliceRows
  rw [List.drop_drop]

theorem writeSlice_shift (pre o chunk : Mat) (qc s : Nat)
    (hpre : pre.length = qc) :
    writeSlice (pre ++ o) (qc + s) qc chunk =
      (writeSlice o s qc chunk).map fun o2 => pre ++ o2 := by
  unfold writeSlice
  have hdrop : ∀ i, (pre ++ o).drop (qc + i) = o.drop i := by
    intro i
    rw [← hpre, List.drop_append]
  have htake : (pre ++ o).take (qc + s) = pre ++ o.take s := by
    rw [← hpre, List.take_append]
  rw [hdrop s, htake]
  by_cases hlen : chunk.length = ((o.drop s).take qc).length
  · rw [if_pos hlen, if_pos hlen]
    rw [show qc + s + qc = qc + (s + qc) by omega, hdrop (s + qc)]
    cases hmm : (List.zipWith (fun t c => bcastTo t.length c)
        ((o.drop s).take qc) chunk).mapM id with
    | none => rfl
    | some rows =>
      simp [List.append_assoc]
  · rw [if_neg hlen, if_neg hlen]
    rfl

theorem lmaQStep_shift (e : ℚ → ℚ) (q k v : Mat) (bs : List Mat)
    (qc kvc : Nat) (pre o : Mat) (hpre : pre.length = qc) (s : Nat) :
    lmaQStep e q k v bs qc kvc (pre ++ o) (qc + s) =
      (lmaQStep e (q.drop qc) k v (bs.map (List.drop qc)) qc kvc o s).map
        fun o2 => pre ++ o2 := by
  unfold lmaQStep
  rw [sliceRows_shift]
  rw [show bs.map (sliceRows (qc + s) qc) =
      (bs.map (List.drop qc)).map (sliceRows s qc) by
    rw [List.map_map]
    apply List.map_congr_left
    intro b _
    simp only [Function.comp_apply]
    exact sliceRows_shift b qc s]
  cases hout : lmaQChunkOut e (sliceRows s qc (q.drop qc)) k v
      ((bs.map (List.drop qc)).map (sliceRows s qc)) kvc with
  | none => rfl
  | some out =>
    simp only [Option.bind_eq_bind, Option.some_bind]
    exact writeSlice_shift pre o out qc s hpre

theorem foldlM_lmaQStep_shift (e : ℚ → ℚ) (q k v : Mat) (bs : List Mat)
    (qc kvc : Nat) (pre : Mat) (hpre : pre.length = qc) :
    ∀ (starts : List Nat) (o : Mat),
      (starts.map fun s => qc + s).foldlM
          (lmaQStep e q k v bs qc kvc) (pre ++ o) =
        (starts.foldlM (lmaQStep e (q.drop qc) k v (bs.map (List.drop qc)) qc kvc)
          o).map fun o2 => pre ++ o2 := by
  intro starts
  induction starts with
  | nil => intro o; rfl
  | cons s t ih =>
    intro o
    simp only [List.map_cons, List.foldlM_cons]
    rw [lmaQStep_shift e q k v bs qc kvc pre o hpre s]
    cases hstep : lmaQStep e (q.drop qc) k v (bs.map (List.drop qc)) qc kvc o s with
    | none => rfl
    | some o2 =>
      simp only [Option.map_some, Option.bind_eq_bind, Option.some_bind]
      exact ih o2

theorem logits_nil (k : Mat) (bs : List Mat) : logits [] k bs = [] := by
  unfold logits
  have hbase : matmulRT [] k = [] := rfl
  rw [hbase]
  induction bs with
  | nil => rfl
  | cons b t ih =>
    rw [List.foldl_cons, List.zipWith_nil_left]
    exact ih

theorem dropRows_zipWith_add (c : Nat) (x b : Mat) :
    (List.zipWith (fun r t => List.zipWith (· + ·) r t) x b).drop c =
      List.zipWith (fun r t => List.zipWith (· + ·) r t) (x.drop c) (b.drop c) :=
  List.drop_zipWith

theorem logits_dropRows (q k : Mat) (bs : List Mat) (c : Nat) :
    logits (q.drop c) k (bs.map (List.drop c)) = (logits q k bs).drop c := by
  unfold logits
  rw [show matmulRT (q.drop c) k = (matmulRT q k).drop c by
    unfold matmulRT
    rw [← List.map_drop]]
  exact foldl_add_slice (List.drop c) (fun x b => dropRows_zipWith_add c x b) bs _

theorem rect_takeRows {m : Mat} {Q C : Nat} (hm : rect m Q C) (c : Nat) :
    rect (m.take c) (min c Q) C := by
  constructor
  · simp [List.length_take, hm.1]
  · intro r hr
    exact hm.2 r (List.mem_of_mem_take hr)

theorem rect_dropRows {m : Mat} {Q C : Nat} (hm : rect m Q C) (c : Nat) :
    rect (m.drop c) (Q - c) C := by
  constructor
  · simp [hm.1]
  · intro r hr
    exact hm.2 r (List.mem_of_mem_drop hr)

theorem directRow_length (e : ℚ → ℚ) (r : List ℚ) (v : Mat) :
    (directRow e r v).length = (v.headD []).length := by
  simp [directRow, transposeLL_length]

theorem sliceRows_zero (qc : Nat) (q : Mat) : sliceRows 0 qc q = q.take qc := by
  unfold sliceRows
  rw [List.drop_zero]

/-- `_lma` computes exactly the rows of `_attention`: for rectangular inputs
with at least one key/value position, logit-shaped biases and positive chunk
sizes, the fold of query-chunk writes produces the softmax-weighted rows of
the full logit matrix. -/
theorem lma_eq_rows {e : ℚ → ℚ} (hexp : ∀ x y, e (x + y) = e x * e y)
    (hpos : ∀ x, 0 < e x) {k v : Mat} {K d : Nat}
    (hk : rect k K d) (hv : rect v K d) (hK : 0 < K) {qc kvc : Nat}
    (hqc : 0 < qc) (hkc : 0 < kvc) :
    ∀ n (q : Mat) (bs : List Mat), q.length = n → (∀ r ∈ q, r.length = d) →
      (∀ b ∈ bs, rect b q.length K) →
      lma e q k v bs qc kvc =
        some ((logits q k bs).map fun r => directRow e r v) := by
  intro n
  induction n using Nat.strong_induction_on with
  | _ n ih =>
    intro q bs hqlen hqrows hbs
    have hrectq : rect q q.length d := ⟨rfl, hqrows⟩
    have hrectL : rect (logits q k bs) q.length K :=
      rect_logits rfl hk.1 hbs
    unfold lma
    rw [if_neg (by omega)]
    rcases Nat.eq_zero_or_pos q.length with h0 | h0
    · have hq0 : q = [] := List.length_eq_zero.mp h0
      subst hq0
      simp [chunkStarts_nil, logits_nil]
    · rw [chunkStarts_cons hqc h0, List.foldlM_cons]
      have hs0 : sliceRows 0 qc q = q.take qc := sliceRows_zero qc q
      have hbs0 : ∀ b2 ∈ bs.map (sliceRows 0 qc),
          rect b2 (min qc q.length) K := by
        intro b2 hb2
        obtain ⟨b, hb, rfl⟩ := List.mem_map.mp hb2
        rw [sliceRows_zero]
        have := rect_takeRows (hbs b hb) qc
        exact this
      have hout := lmaQChunkOut_eq hexp hpos (rect_takeRows hrectq qc) hk hv
        hbs0 hK hkc
      have hstep0 : lmaQStep e q k v bs qc kvc
          (q.map fun r => r.map fun _ => (0 : ℚ)) 0 =
          some ((((logits q k bs).take qc).map fun r => directRow e r v) ++
            ((q.drop qc).map fun r => r.map fun _ => (0 : ℚ))) := by
        unfold lmaQStep
        rw [hs0, hout]
        simp only [Option.bind_eq_bind, Option.some_bind]
        have hlog : logits (q.take qc) k (bs.map (sliceRows 0 qc)) =
            (logits q k bs).take qc := by
          conv_lhs => rw [← hs0]
          rw [logits_sliceRows, sliceRows_zero]
        rw [hlog]
        rw [writeSlice_full (d := d)
          (by simp [List.length_take, List.drop_zero, hrectL.1])
          (by
            intro t ht
            rw [List.drop_zero] at ht
            have ht2 := List.mem_of_mem_take ht
            obtain ⟨r, hr, rfl⟩ := List.mem_map.mp ht2
            simp [hqrows r hr])
          (by
            intro c2 hc2
            obtain ⟨r, hr, rfl⟩ := List.mem_map.mp hc2
            rw [directRow_length, rect_headD_length hv hK])]
        rw [List.take_zero, List.nil_append, Nat.zero_add, ← List.map_drop]
      rw [hstep0]
      simp only [Option.bind_eq_bind, Option.some_bind]
      rcases le_or_lt q.length qc with hle | hlt
      · have hz : q.length - qc = 0 := by omega
        rw [hz, chunkStarts_nil]
        simp only [List.map_nil, List.foldlM_nil]
        rw [List.drop_eq_nil_of_le hle]
        rw [List.take_of_length_le (by rw [hrectL.1]; exact hle)]
        simp
      · have hpre : ((((logits q k bs).take qc).map fun r =>
            directRow e r v)).length = qc := by
          simp [List.length_take, hrectL.1]
          omega
        rw [foldlM_lmaQStep_shift e q k v bs qc kvc _ hpre]
        have hfold : (chunkStarts (q.length - qc) qc).foldlM
            (lmaQStep e (q.drop qc) k v (bs.map (List.drop qc)) qc kvc)
            ((q.drop qc).map fun r => r.map fun _ => (0 : ℚ)) =
            lma e (q.drop qc) k v (bs.map (List.drop qc)) qc kvc := by
          unfold lma
          rw [if_neg (by omega), List.length_drop]
        rw [hfold]
        rw [ih (q.length - qc) (by omega) (q.drop qc) (bs.map (List.drop qc))
          (by simp) (fun r hr => hqrows r (List.mem_of_mem_drop hr))
          (fun b2 hb2 => by
            obtain ⟨b, hb, rfl⟩ := List.mem_map.mp hb2
            rw [List.length_drop]
            exact rect_dropRows (hbs b hb) qc)]
        rw [logits_dropRows]
        simp only [Option.map_some']
        rw [← List.map_append, List.take_append_drop]

/-! ### Claims C1 and C4 -/

/-- C1 (amended): for rectangular `q : [Q, d]`, `k : [K, d]`, `v : [K, d]`
with at least one key/value position, biases whose trailing two dimensions
are exactly `(Q, K)` (which `Attention.forward` guarantees by `expand`ing
every bias before calling `_lma`), and any positive chunk sizes, `_lma`
returns exactly the output of `_attention` on the same inputs — under exact
arithmetic, for every homomorphic positive exponential.  In particular the
result is independent of the choice of `q_chunk_size` and `kv_chunk_size`,
including size 1 and sizes at least the full axis length.  (As stated, over
all *broadcastable* biases, the claim fails — `c1_counterexample`.) -/
theorem c1_lma_equals_attention {e : ℚ → ℚ}
    (hexp : ∀ x y, e (x + y) = e x * e y) (hpos : ∀ x, 0 < e x)
    {q k v : Mat} {bs : List Mat} {Q K d : Nat}
    (hq : rect q Q d) (hk : rect k K d) (hv : rect v K d)
    (hbs : ∀ b ∈ bs, rect b Q K) (hK : 0 < K) {qc kvc : Nat}
    (hqc : 0 < qc) (hkc : 0 < kvc) :
    lma e q k v bs qc kvc = attention e q k v bs := by
  rw [attention_eq_some (addBiases_full bs _ (rect_matmulRT hq.1 hk.1)
    (by rw [← hq.1] at hbs ⊢; exact hbs))]
  exact lma_eq_rows hexp hpos hk hv hK hqc hkc q.length q bs rfl
    (fun r hr => hq.2 r hr) (by rw [hq.1]; exact hbs)

/-- C1 counterexample: the claim as frozen quantifies over every bias that is
merely broadcastable to the logit shape.  For the bias `[[0, 0]]` (query
dimension 1, broadcastable over `Q = 2` rows) and `q_chunk_size = 1`, the
second query chunk of `_lma` slices the bias to zero rows and the in-place
add raises, while `_attention` broadcasts happily: the two functions are not
equal there. -/
theorem c1_counterexample :
    lma expOne [[1], [0]] [[0], [0]] [[0], [1]] [[[0, 0]]] 1 2 = none ∧
    attention expOne [[1], [0]] [[0], [0]] [[0], [1]] [[[0, 0]]] =
      some [[1/2], [1/2]] ∧
    lma expOne [[1], [0]] [[0], [0]] [[0], [1]] [[[0, 0]]] 1 2 ≠
      attention expOne [[1], [0]] [[0], [0]] [[0], [1]] [[[0, 0]]] := by
  have h1 : lma expOne [[1], [0]] [[0], [0]] [[0], [1]] [[[0, 0]]] 1 2 = none := by
    norm_num [lma, lmaQStep, lmaQChunkOut, lmaKvStats, lmaKvStep, chunkStarts,
      sliceRows, sliceCols, addBiases, addBias, addBiasRow, bcastTo, matmulRT,
      dot, List.range', List.mapM.loop, List.foldlM, writeSlice, expOne]
  have h2 : attention expOne [[1], [0]] [[0], [0]] [[0], [1]] [[[0, 0]]] =
      some [[1/2], [1/2]] := by
    norm_num [attention, addBiases, addBias, addBiasRow, bcastTo, matmulRT,
      matmul, transposeLL, softmaxMat, softmaxRow, rowMax, dot, List.foldlM,
      List.mapM.loop, List.range_succ, List.getD, expOne]
  refine ⟨h1, h2, ?_⟩
  rw [h1, h2]
  simp

theorem c1_witness :
    lma expOne [[1], [0]] [[0], [0], [2], [3]] [[5], [7], [11], [13]]
        [[[1, 0, 2, 0], [0, 1, 0, 2]]] 1 3 =
      attention expOne [[1], [0]] [[0], [0], [2], [3]] [[5], [7], [11], [13]]
        [[[1, 0, 2, 0], [0, 1, 0, 2]]] :=
  c1_lma_equals_attention (fun x y => by simp [expOne]) (fun x => one_pos)
    (Q := 2) (K := 4) (d := 1) (by decide) (by decide) (by decide)
    (by decide) (by decide) (by decide) (by decide)

theorem lmaRowDen_ge_one {e : ℚ → ℚ} (hexp : ∀ x y, e (x + y) = e x * e y)
    (hpos : ∀ x, 0 < e x) (a : List ℚ) (ha : a ≠ []) (c : Nat) (hc : 0 < c) :
    1 ≤ lmaRowDen e a c (rowGlobalMax a c) := by
  unfold lmaRowDen rowGlobalMax
  have haPos : 0 < a.length := List.length_pos.mpr ha
  have hJne : chunkStarts a.length c ≠ [] := chunkStarts_ne_nil hc haPos
  set M := rowMax ((chunkStarts a.length c).map fun s =>
    rowMax ((a.drop s).take c)) with hM
  have hmem : M ∈ (chunkStarts a.length c).map fun s =>
      rowMax ((a.drop s).take c) := by
    rw [hM]
    exact rowMax_mem (by simp [hJne])
  obtain ⟨s0, hs0J, hs0⟩ := List.mem_map.mp hmem
  have hchunk_ne : (a.drop s0).take c ≠ [] :=
    chunk_ne_nil hc (mem_chunkStarts_lt hs0J)
  have hterm0 : 1 ≤ e (rowMax ((a.drop s0).take c) - M) *
      (((a.drop s0).take c).map fun x =>
        e (x - rowMax ((a.drop s0).take c))).sum := by
    rw [hs0, sub_self, e_zero hexp hpos, one_mul]
    have hmemx : (1 : ℚ) ∈ ((a.drop s0).take c).map fun x => e (x - M) :=
      List.mem_map.mpr ⟨M, by rw [← hs0]; exact rowMax_mem hchunk_ne,
        by rw [sub_self, e_zero hexp hpos]⟩
    exact List.single_le_sum (fun x hx => by
      obtain ⟨x0, _, rfl⟩ := List.mem_map.mp hx
      exact (hpos _).le) 1 hmemx
  refine le_trans hterm0 (List.single_le_sum (fun t ht => ?_) _
    (List.mem_map_of_mem _ hs0J))
  obtain ⟨s, hsJ, rfl⟩ := List.mem_map.mp ht
  have hWpos : 0 < (((a.drop s).take c).map fun x =>
      e (x - rowMax ((a.drop s).take c))).sum := by
    apply List.sum_pos
    · intro x hx
      obtain ⟨x0, _, rfl⟩ := List.mem_map.mp hx
      exact hpos _
    · simp only [ne_eq, List.map_eq_nil_iff]
      exact chunk_ne_nil hc (mem_chunkStarts_lt hsJ)
  exact (mul_pos (hpos _) hWpos).le

/-- C4: in `_lma`, for any inputs on which the inner kv loop succeeds (any
finite rational entries — in particular fully masked biases — with at least
one key/value position), every entry of the normalisation denominator
`all_weights` is at least 1 and in particular nonzero: the kv-chunk whose
maximum attains the row's global maximum contributes weight at least 1 after
rescaling, so `all_values / all_weights` never divides by zero. -/
theorem c4_all_weights_ge_one {e : ℚ → ℚ}
    (hexp : ∀ x y, e (x + y) = e x * e y) (hpos : ∀ x, 0 < e x)
    {qch k v : Mat} {bs : List Mat} {Qc K d cv kvc : Nat}
    (hq : rect qch Qc d) (hk : rect k K d) (hv : rect v K cv)
    (hbs : ∀ b ∈ bs, rect b Qc K) (hK : 0 < K) (hkc : 0 < kvc)
    {stats : List (List ℚ × List ℚ × Mat)}
    (hstats : lmaKvStats e qch k v bs kvc = some stats)
    (i : Nat) (hi : i < Qc) :
    1 ≤ (lmaAllWeights e stats).getD i 0 ∧
      (lmaAllWeights e stats).getD i 0 ≠ 0 := by
  have hLrect : rect (logits qch k bs) Qc K := rect_logits hq.1 hk.1 hbs
  rw [lmaKvStats_eq hq hk hv hbs] at hstats
  have hstats2 := Option.some.inj hstats
  subst hstats2
  rw [lmaAW_entry hLrect hv hK hkc i hi]
  have hge := lmaRowDen_ge_one hexp hpos ((logits qch k bs).getD i [])
    (by
      have := rect_getD_length hLrect hi
      intro hnil
      rw [hnil] at this
      simp at this
      omega) kvc hkc
  exact ⟨hge, by linarith⟩

theorem c4_witness :
    1 ≤ (lmaAllWeights expOne [([1], [1], [[1]])]).getD 0 0 ∧
      (lmaAllWeights expOne [([1], [1], [[1]])]).getD 0 0 ≠ 0 :=
  @c4_all_weights_ge_one expOne (fun x y => by simp [expOne])
    (fun x => one_pos) [[1]] [[1]] [[1]] [] 1 1 1 1 1
    (by decide) (by decide) (by decide) (by decide) (by decide) (by decide)
    [([1], [1], [[1]])]
    (by norm_num [lmaKvStats, lmaKvStep, chunkStarts, sliceRows, sliceCols,
      addBiases, matmulRT, matmul, transposeLL, dot, rowMax, List.range',
      List.mapM.loop, List.foldlM, List.range_succ, List.getD, expOne,
      lmaMs, lmaWs, lmaVs])
    0 (by decide)

/-! ### Claim C9: the pooled query of GlobalAttention -/

/-- C9 (amended): with an all-ones mask the pooled query of
`GlobalAttention.forward` equals the column sums divided by
`N + eps` — the epsilon-guarded denominator of the source — and therefore
equals the unweighted arithmetic mean exactly when `eps = 0`.  (With the
nonzero `eps` the module is instantiated with, the pooled query differs from
the unweighted mean: `c9_counterexample`.) -/
theorem c9_pooled_query_mean {m : Mat} {mask : List ℚ} {eps : ℚ}
    (hmask : mask = List.replicate m.length 1) (heps : eps = 0) :
    globalPooledQuery m mask eps = meanOverSeq m := by
  subst hmask heps
  unfold globalPooledQuery meanOverSeq
  have hz : List.zipWith (fun row w => row.map (· * w)) m
      (List.replicate m.length 1) = m := by
    induction m with
    | nil => rfl
    | cons r t ih =>
      simp only [List.length_cons, List.replicate_succ, List.zipWith_cons_cons]
      rw [ih]
      have : r.map (· * 1) = r := by simp
      rw [this]
  rw [hz]
  have hsum : (List.replicate m.length (1 : ℚ)).sum + 0 = (m.length : ℚ) := by
    simp [List.sum_replicate]
  rw [hsum]

/-- C9 counterexample: a single position of value 1, all-ones mask, the
module epsilon 1: the pooled query is `1 / (1 + 1) = 1/2`, not the
unweighted mean `1`. -/
theorem c9_counterexample :
    globalPooledQuery [[1]] [1] 1 = [1/2] ∧ meanOverSeq [[1]] = [1] ∧
    globalPooledQuery [[1]] [1] 1 ≠ meanOverSeq [[1]] := by
  refine ⟨?_, ?_, ?_⟩ <;>
    norm_num [globalPooledQuery, meanOverSeq, colSums, colFold]

theorem c9_witness : globalPooledQuery [[2], [4]] [1, 1] 0 = meanOverSeq [[2], [4]] :=
  c9_pooled_query_mean rfl rfl

/-! ### Claim C7: the bias-count guard of the checkpointed chunked path -/

/-- C7: `_attention_chunked_trainable` with `checkpoint=True` raises the
bias-count `ValueError` if and only if more than two bias terms are
supplied; with `checkpoint=False` that error is never raised, whatever the
number of bias terms.  (Other errors — torch shape errors — remain possible
on either path and are distinct from the bias-count error.) -/
theorem c7_checkpoint_bias_count (e : ℚ → ℚ) (q k v : T3) (bs : List T3)
    (cs : Nat) (dim3 : Fin 3) :
    (chunked3 e true q k v bs cs dim3 = .error .ckptBias ↔ 2 < bs.length) ∧
    chunked3 e false q k v bs cs dim3 ≠ .error .ckptBias := by
  constructor
  · constructor
    · intro h
      by_contra hn
      unfold chunked3 at h
      rw [if_neg (by simp; omega)] at h
      rcases hoc : (chunkStarts (shape3 dim3 q) cs).mapM fun s =>
          (attention3 e (slice3 dim3 s cs q) (slice3 dim3 s cs k)
            (slice3 dim3 s cs v)
            ((if true = true then bs.take 2 else bs).map fun b =>
              if shape3 dim3 b ≠ 1 then slice3 dim3 s cs b else b)).map
            transposeLL with u | os
      · rw [hoc] at h
        simp at h
      · rw [hoc] at h
        rcases hcat : cat3 dim3 os with u2 | o <;> simp [hcat] at h
    · intro h
      unfold chunked3
      rw [if_pos ⟨rfl, h⟩]
  · intro h
    unfold chunked3 at h
    rw [if_neg (by simp)] at h
    rcases hoc : (chunkStarts (shape3 dim3 q) cs).mapM fun s =>
        (attention3 e (slice3 dim3 s cs q) (slice3 dim3 s cs k)
          (slice3 dim3 s cs v)
          ((if false = true then bs.take 2 else bs).map fun b =>
            if shape3 dim3 b ≠ 1 then slice3 dim3 s cs b else b)).map
          transposeLL with u | os
    · rw [hoc] at h
      simp at h
    · rw [hoc] at h
      rcases hcat : cat3 dim3 os with u2 | o <;> simp [hcat] at h

theorem c7_witness :
    chunked3 expOne true [[[1]]] [[[1]]] [[[1]]] [[[[0]]], [[[0]]], [[[0]]]] 1 1 =
      .error .ckptBias :=
  (c7_checkpoint_bias_count expOne [[[1]]] [[[1]]] [[[1]]]
    [[[[0]]], [[[0]]], [[[0]]]] 1 1).1.mpr (by decide)

/-! ### Claim C2: the chunked-recompute path -/

theorem slice3_one_full {x : T3} {cs : Nat} (h : ∀ m ∈ x, m.length ≤ cs) :
    slice3 1 0 cs x = x := by
  unfold slice3
  rw [show (x.map fun m => (m.drop 0).take cs) = x.map fun m => m by
    apply List.map_congr_left
    intro m hm
    rw [List.drop_zero]
    exact List.take_of_length_le (h m hm)]
  exact List.map_id' x

theorem shape3_one_of_rect3 {x : T3} {H R C : Nat} (hx : rect3 x H R C)
    (hH : 0 < H) : shape3 1 x = R := by
  match x, hx with
  | m :: t, hx => exact (hx.2 m (by simp)).1
  | [], hx =>
    have h0 : 0 = H := by simpa using hx.1
    omega

/-- C2 (amended): `_attention_chunked_trainable` slices `query`, `key`,
`value` and the biases of extent other than 1 all along `chunk_dim`, applies
`_attention` to each chunk triple, transposes each chunk output
(`transpose(-2, -3)`) and concatenates along `chunk_dim`.  When the chunking
along the query axis (`chunk_dim = 1` of `[H, Q, C]`) is trivial — one chunk
covering every input's extent along that axis — the output equals the
`(-2, -3)`-transpose of `_attention` on the undivided inputs (and a torch
shape error on either side coincides).  For a chunk size smaller than the
query axis the output does not equal `_attention`'s (the key/value tensors
are sliced too, producing block-diagonal attention, and the head/query axes
are interleaved): `c2_counterexample`. -/
theorem c2_chunked_single_chunk {e : ℚ → ℚ} {q k v : T3} {bs : List T3}
    {H Q K d w : Nat} (hq3 : rect3 q H Q d) (hk3 : rect3 k H K d)
    (hv3 : rect3 v H K w) (hH : 0 < H) (hQ : 0 < Q) {cs : Nat}
    (hQcs : Q ≤ cs) (hKcs : K ≤ cs)
    (hbs : ∀ b ∈ bs, ∀ m ∈ b, m.length ≤ cs) :
    chunked3 e false q k v bs cs 1 =
      match attention3 e q k v bs with
      | some o => Except.ok (transposeLL o)
      | none => Except.error AttnErr.shape := by
  unfold chunked3
  rw [if_neg (by simp)]
  have hcount : shape3 1 q = Q := shape3_one_of_rect3 hq3 hH
  have hstarts : chunkStarts (shape3 1 q) cs = [0] := by
    rw [hcount, chunkStarts_cons (by omega) hQ, show Q - cs = 0 by omega,
      chunkStarts_nil]
    rfl
  rw [hstarts]
  have hsq : slice3 1 0 cs q = q := slice3_one_full fun m hm => by
    rw [(hq3.2 m hm).1]
    exact hQcs
  have hsk : slice3 1 0 cs k = k := slice3_one_full fun m hm => by
    rw [(hk3.2 m hm).1]
    exact hKcs
  have hsv : slice3 1 0 cs v = v := slice3_one_full fun m hm => by
    rw [(hv3.2 m hm).1]
    exact hKcs
  have hsb : (bs.map fun b => if shape3 1 b ≠ 1 then slice3 1 0 cs b else b) =
      bs := by
    rw [show (bs.map fun b => if shape3 1 b ≠ 1 then slice3 1 0 cs b else b) =
        bs.map fun b => b by
      apply List.map_congr_left
      intro b hb
      by_cases hb1 : shape3 1 b ≠ 1 <;>
        simp [hb1, slice3_one_full (hbs b hb)]]
    exact List.map_id' bs
  rw [List.mapM_cons]
  rw [show (if false = true then List.take 2 bs else bs) = bs from rfl]
  simp only [hsq, hsk, hsv, hsb, List.mapM_nil]
  rcases hatt : attention3 e q k v bs with u | o <;> simp [cat3]

/-- C2 counterexample: with `H = 1`, `Q = K = 2`, `C = 1`, chunking the
query axis with `chunk_size = 1` also slices `key` and `value` (the source
applies the same index tuple to all three), so each query position attends
only its own key: the output `[[[0], [1]]]` differs from `_attention`'s
uniform mixture `[[[1/2], [1/2]]]`. -/
theorem c2_counterexample :
    chunked3 expOne false [[[1], [0]]] [[[0], [0]]] [[[0], [1]]] [] 1 1 =
      .ok [[[0], [1]]] ∧
    attention3 expOne [[[1], [0]]] [[[0], [0]]] [[[0], [1]]] [] =
      some [[[1/2], [1/2]]] ∧
    ([[[0], [1]]] : T3) ≠ [[[1/2], [1/2]]] := by
  refine ⟨?_, ?_, ?_⟩ <;>
    norm_num [chunked3, attention3, attention, cat3, slice3, shape3,
      chunkStarts, List.range', List.mapM.loop, addBiases, addBias,
      addBiasRow, bcastTo, matmulRT, matmul, transposeLL, softmaxMat,
      softmaxRow, rowMax, dot, List.foldlM, List.range_succ, List.getD,
      expOne]

theorem c2_witness :
    chunked3 expOne false [[[1]]] [[[1]]] [[[1]]] [] 1 1 =
      match attention3 expOne [[[1]]] [[[1]]] [[[1]]] [] with
      | some o => Except.ok (transposeLL o)
      | none => Except.error AttnErr.shape :=
  c2_chunked_single_chunk (H := 1) (Q := 1) (K := 1) (d := 1) (w := 1)
    (by decide) (by decide) (by decide) (by decide) (by decide) (by decide)
    (by decide) (by decide)

/-! ### Claim C3: the strategy-flag and chunk-size validation of `forward` -/

theorem forwardEvents_early_lma {e : ℚ → ℚ} {W : AttnWeights} {sqrtC : ℚ}
    {dsI : Bool} {dsK : T3 → T3 → T3 → List T3 → T3} {qx kvx : Mat}
    {biases : List T3} {useDS useLMA : Bool} {qcs kvcs : Option Nat}
    (h : useLMA = true ∧ (qcs = none ∨ kvcs = none)) :
    forwardEvents e W sqrtC dsI dsK qx kvx biases useDS useLMA qcs kvcs =
      ([], .error .lmaChunk) := by
  unfold forwardEvents
  rw [if_pos h]

theorem forwardEvents_early_multi {e : ℚ → ℚ} {W : AttnWeights} {sqrtC : ℚ}
    {dsI : Bool} {dsK : T3 → T3 → T3 → List T3 → T3} {qx kvx : Mat}
    {biases : List T3} {useDS useLMA : Bool} {qcs kvcs : Option Nat}
    (h1 : ¬(useLMA = true ∧ (qcs = none ∨ kvcs = none)))
    (h2 : 1 < (cond useDS 1 0) + (cond useLMA 1 0)) :
    forwardEvents e W sqrtC dsI dsK qx kvx biases useDS useLMA qcs kvcs =
      ([], .error .multiStrategy) := by
  unfold forwardEvents
  rw [if_neg h1, if_pos h2]

theorem forwardEvents_main {e : ℚ → ℚ} {W : AttnWeights} {sqrtC : ℚ}
    {dsI : Bool} {dsK : T3 → T3 → T3 → List T3 → T3} {qx kvx : Mat}
    {biases : List T3} {useDS useLMA : Bool} {qcs kvcs : Option Nat}
    (h1 : ¬(useLMA = true ∧ (qcs = none ∨ kvcs = none)))
    (h2 : ¬(1 < (cond useDS 1 0) + (cond useLMA 1 0))) :
    (forwardEvents e W sqrtC dsI dsK qx kvx biases useDS useLMA qcs kvcs).1 =
      [FwdEv.prep (prepQkv W sqrtC qx kvx (!useDS)).1
        (prepQkv W sqrtC qx kvx (!useDS)).2.1
        (prepQkv W sqrtC qx kvx (!useDS)).2.2] ∧
    ((forwardEvents e W sqrtC dsI dsK qx kvx biases useDS useLMA qcs kvcs).2 =
        .error .dsBiasCount ∨
      (forwardEvents e W sqrtC dsI dsK qx kvx biases useDS useLMA qcs kvcs).2 =
        .error .dsNotInstalled ∨
      (forwardEvents e W sqrtC dsI dsK qx kvx biases useDS useLMA qcs kvcs).2 =
        .error .shape ∨
      ∃ m, (forwardEvents e W sqrtC dsI dsK qx kvx biases useDS useLMA
        qcs kvcs).2 = .ok m) := by
  unfold forwardEvents
  rw [if_neg h1, if_neg h2]
  cases useDS
  · cases useLMA
    · rcases h : attention3 e (prepQkv W sqrtC qx kvx true).1
          (prepQkv W sqrtC qx kvx true).2.1
          (prepQkv W sqrtC qx kvx true).2.2 biases with u | o <;>
        simp [h]
    · rcases hb : biases.mapM (expandQK qx.length kvx.length) with u | bs2
      · simp [hb]
      · rcases hl : lma3 e (prepQkv W sqrtC qx kvx true).1
            (prepQkv W sqrtC qx kvx true).2.1
            (prepQkv W sqrtC qx kvx true).2.2 bs2 (qcs.getD 0)
            (kvcs.getD 0) with u | o <;> simp [hb, hl]
  · by_cases hlen : 2 < biases.length
    · simp [hlen]
    · cases dsI <;> simp [hlen]

/-- C3: `Attention.forward` raises the mutually-exclusive-strategy error (or,
when a chunk size is also missing, the LMA chunk-size error, which the source
checks first) whenever both strategy flags are set; it raises the LMA
chunk-size error whenever `use_lma` is set and at least one — in particular
exactly one — of `lma_q_chunk_size` and `lma_kv_chunk_size` is `None`; and
for every configuration with at most one strategy flag set and both chunk
sizes provided, neither of those two errors is raised. -/
theorem c3_strategy_validation (e : ℚ → ℚ) (W : AttnWeights) (sqrtC : ℚ)
    (dsI : Bool) (dsK : T3 → T3 → T3 → List T3 → T3) (qx kvx : Mat)
    (biases : List T3) (useDS useLMA : Bool) (qcs kvcs : Option Nat) :
    (useDS = true → useLMA = true →
      (forwardEvents e W sqrtC dsI dsK qx kvx biases useDS useLMA qcs kvcs).2 =
          .error .multiStrategy ∨
        (forwardEvents e W sqrtC dsI dsK qx kvx biases useDS useLMA
          qcs kvcs).2 = .error .lmaChunk) ∧
    (useLMA = true → qcs = none ∨ kvcs = none →
      (forwardEvents e W sqrtC dsI dsK qx kvx biases useDS useLMA qcs kvcs).2 =
        .error .lmaChunk) ∧
    (¬(useDS = true ∧ useLMA = true) → qcs ≠ none → kvcs ≠ none →
      (forwardEvents e W sqrtC dsI dsK qx kvx biases useDS useLMA qcs kvcs).2 ≠
          .error .lmaChunk ∧
        (forwardEvents e W sqrtC dsI dsK qx kvx biases useDS useLMA
          qcs kvcs).2 ≠ .error .multiStrategy) := by
  refine ⟨?_, ?_, ?_⟩
  · intro hds hlma
    by_cases hc : qcs = none ∨ kvcs = none
    · right
      rw [forwardEvents_early_lma ⟨hlma, hc⟩]
    · left
      rw [forwardEvents_early_multi (by tauto) (by rw [hds, hlma]; decide)]
  · intro hlma hc
    rw [forwardEvents_early_lma ⟨hlma, hc⟩]
  · intro hflag hq hk
    have h1 : ¬(useLMA = true ∧ (qcs = none ∨ kvcs = none)) := by
      rintro ⟨-, h | h⟩
      exacts [hq h, hk h]
    have h2 : ¬(1 < (cond useDS 1 0) + (cond useLMA 1 0)) := by
      cases useDS <;> cases useLMA
      · decide
      · decide
      · decide
      · exact fun _ => hflag ⟨rfl, rfl⟩
    rcases (forwardEvents_main h1 h2).2 with h | h | h | ⟨m, h⟩ <;>
      rw [h] <;> exact ⟨by simp, by simp⟩

theorem c3_witness :
    (forwardEvents expOne ⟨1, [[1]], [[1]], [[1]], [[1]], [0], none⟩ 1 false
        (fun _ _ _ _ => []) [[1]] [[1]] [] false true none (some 1)).2 =
      .error .lmaChunk ∧
    (forwardEvents expOne ⟨1, [[1]], [[1]], [[1]], [[1]], [0], none⟩ 1 false
        (fun _ _ _ _ => []) [[1]] [[1]] [] false false (some 1) (some 1)).2 ≠
      .error .lmaChunk := by
  constructor
  · exact (c3_strategy_validation expOne
      ⟨1, [[1]], [[1]], [[1]], [[1]], [0], none⟩ 1 false (fun _ _ _ _ => [])
      [[1]] [[1]] [] false true none (some 1)).2.1 rfl (Or.inl rfl)
  · exact ((c3_strategy_validation expOne
      ⟨1, [[1]], [[1]], [[1]], [[1]], [0], none⟩ 1 false (fun _ _ _ _ => [])
      [[1]] [[1]] [] false false (some 1) (some 1)).2.2 (by simp) (by simp)
      (by simp)).1

/-! ### Claim C6: where in `forward` the validation errors are raised -/

/-- C6 (amended): the two strategy-validation errors of `Attention.forward`
(missing LMA chunk size; more than one strategy flag) are raised before any
numeric work — on such runs the trace of executed `_prep_qkv` projections is
empty.  The claim's stronger assertion is false for the fused-path errors:
the more-than-two-biases error and the missing-deepspeed-runtime error are
raised only after `_prep_qkv` has projected query, key and value, so those
runs commit the projections first (`c6_counterexample` exhibits one). -/
theorem c6_fail_fast (e : ℚ → ℚ) (W : AttnWeights) (sqrtC : ℚ)
    (dsI : Bool) (dsK : T3 → T3 → T3 → List T3 → T3) (qx kvx : Mat)
    (biases : List T3) (useDS useLMA : Bool) (qcs kvcs : Option Nat) :
    ((forwardEvents e W sqrtC dsI dsK qx kvx biases useDS useLMA qcs kvcs).2 =
          .error .lmaChunk ∨
        (forwardEvents e W sqrtC dsI dsK qx kvx biases useDS useLMA
          qcs kvcs).2 = .error .multiStrategy →
      (forwardEvents e W sqrtC dsI dsK qx kvx biases useDS useLMA qcs kvcs).1 =
        []) ∧
    ((forwardEvents e W sqrtC dsI dsK qx kvx biases useDS useLMA qcs kvcs).2 =
          .error .dsBiasCount ∨
        (forwardEvents e W sqrtC dsI dsK qx kvx biases useDS useLMA
          qcs kvcs).2 = .error .dsNotInstalled →
      (forwardEvents e W sqrtC dsI dsK qx kvx biases useDS useLMA qcs kvcs).1 =
        [FwdEv.prep (prepQkv W sqrtC qx kvx (!useDS)).1
          (prepQkv W sqrtC qx kvx (!useDS)).2.1
          (prepQkv W sqrtC qx kvx (!useDS)).2.2]) := by
  by_cases hc1 : useLMA = true ∧ (qcs = none ∨ kvcs = none)
  · rw [forwardEvents_early_lma hc1]
    exact ⟨fun _ => rfl, fun h => by rcases h with h | h <;> simp at h⟩
  · by_cases hc2 : 1 < (cond useDS 1 0) + (cond useLMA 1 0)
    · rw [forwardEvents_early_multi hc1 hc2]
      exact ⟨fun _ => rfl, fun h => by rcases h with h | h <;> simp at h⟩
    · refine ⟨fun h => ?_, fun _ => (forwardEvents_main hc1 hc2).1⟩
      rcases (forwardEvents_main hc1 hc2).2 with hx | hx | hx | ⟨m, hx⟩ <;>
        rcases h with h | h <;> rw [hx] at h <;> simp at h

theorem c6_counterexample :
    (forwardEvents expOne ⟨1, [[1]], [[1]], [[1]], [[1]], [0], none⟩ 1 false
        (fun _ _ _ _ => []) [[1]] [[1]] [] true false (some 1) (some 1)).2 =
      .error .dsNotInstalled ∧
    (forwardEvents expOne ⟨1, [[1]], [[1]], [[1]], [[1]], [0], none⟩ 1 false
        (fun _ _ _ _ => []) [[1]] [[1]] [] true false (some 1) (some 1)).1 =
      [FwdEv.prep [[[1]]] [[[1]]] [[[1]]]] := by
  constructor
  · rfl
  · norm_num [forwardEvents, prepQkv, matmulRT, transposeLL, dot, splitRow,
      chunkStarts, List.range', List.getD, List.range_succ]

theorem c6_witness :
    (forwardEvents expOne ⟨1, [[1]], [[1]], [[1]], [[1]], [0], none⟩ 1 false
        (fun _ _ _ _ => []) [[1]] [[1]] [] false true none none).1 = [] :=
  (c6_fail_fast expOne ⟨1, [[1]], [[1]], [[1]], [[1]], [0], none⟩ 1 false
    (fun _ _ _ _ => []) [[1]] [[1]] [] false true none none).1 (Or.inl rfl)

/-! ### Claim C8: the query scaling of `_prep_qkv` -/

theorem prepQkv_scale (W : AttnWeights) (sqrtC : ℚ) (qx kvx : Mat)
    (useDS : Bool) :
    prepQkv W sqrtC qx kvx (!useDS) =
      (if useDS then (prepQkv W sqrtC qx kvx false).1
       else (prepQkv W sqrtC qx kvx false).1.map fun m =>
         m.map fun r => r.map (· / sqrtC),
       (prepQkv W sqrtC qx kvx false).2.1,
       (prepQkv W sqrtC qx kvx false).2.2) := by
  cases useDS <;> simp [prepQkv]

/-- C8: on every run of `Attention.forward` that passes the strategy
validation, the `_prep_qkv` call records exactly one `prep` event whose key
and value tensors never depend on the strategy, and whose query tensor is the
raw projected-and-reshaped query when `use_deepspeed_evo_attention` is set,
and otherwise — for the direct and the low-memory strategies alike — that raw
query with every entry divided by `sqrt(c_hidden)` exactly once. -/
theorem c8_query_scaling (e : ℚ → ℚ) (W : AttnWeights) (sqrtC : ℚ)
    (dsI : Bool) (dsK : T3 → T3 → T3 → List T3 → T3) (qx kvx : Mat)
    (biases : List T3) (useDS useLMA : Bool) (qcs kvcs : Option Nat)
    (h1 : ¬(useLMA = true ∧ (qcs = none ∨ kvcs = none)))
    (h2 : ¬(1 < (cond useDS 1 0) + (cond useLMA 1 0))) :
    (forwardEvents e W sqrtC dsI dsK qx kvx biases useDS useLMA qcs kvcs).1 =
      [FwdEv.prep
        (if useDS then (prepQkv W sqrtC qx kvx false).1
         else (prepQkv W sqrtC qx kvx false).1.map fun m =>
           m.map fun r => r.map (· / sqrtC))
        (prepQkv W sqrtC qx kvx false).2.1
        (prepQkv W sqrtC qx kvx false).2.2] := by
  rw [(forwardEvents_main h1 h2).1, prepQkv_scale]

theorem c8_witness :
    (forwardEvents expOne ⟨1, [[1]], [[1]], [[1]], [[1]], [0], none⟩ 2 false
        (fun _ _ _ _ => []) [[1]] [[1]] [] false false (some 1) (some 1)).1 =
      [FwdEv.prep [[[1/2]]] [[[1]]] [[[1]]]] := by
  have h := c8_query_scaling expOne ⟨1, [[1]], [[1]], [[1]], [[1]], [0], none⟩
    2 false (fun _ _ _ _ => []) [[1]] [[1]] [] false false (some 1) (some 1)
    (by simp) (by decide)
  rw [h]
  norm_num [prepQkv, matmulRT, transposeLL, dot, splitRow, chunkStarts,
    List.range', List.getD, List.range_succ]

/-! ### Claim C5: bias combination under broadcasting -/

theorem bcastTo_bad {α : Type} {l : List α} {n : Nat} (h1 : l.length ≠ n)
    (h2 : l.length ≠ 1) : bcastTo n l = none := by
  unfold bcastTo
  rw [if_neg h1]
  cases l with
  | nil => rfl
  | cons y t =>
    cases t with
    | nil => simp at h2
    | cons z t2 => rfl

theorem addBiasRow_bad {ar br : List ℚ} (h1 : br.length ≠ ar.length)
    (h2 : br.length ≠ 1) : addBiasRow ar br = none := by
  unfold addBiasRow
  rw [bcastTo_bad h1 h2]
  rfl

theorem bcastTo_good {α : Type} {l : List α} {n : Nat}
    (h : l.length = n ∨ l.length = 1) :
    ∃ l2, bcastTo n l = some l2 ∧ l2.length = n ∧ (∀ y ∈ l2, y ∈ l) ∧
      ∀ j, j < n → ∀ d, l2.getD j d = l.getD (if l.length = 1 then 0 else j) d := by
  by_cases hln : l.length = n
  · refine ⟨l, bcastTo_of_len hln, hln, fun y hy => hy, fun j hj d => ?_⟩
    by_cases h1 : l.length = 1
    · rw [if_pos h1]
      have hj0 : j = 0 := by omega
      rw [hj0]
    · rw [if_neg h1]
  · have h1 : l.length = 1 := h.resolve_left hln
    obtain ⟨x, rfl⟩ := List.length_eq_one.mp h1
    refine ⟨List.replicate n x, ?_, by simp, ?_, fun j hj d => ?_⟩
    · unfold bcastTo
      rw [if_neg hln]
    · intro y hy
      rw [List.eq_of_mem_replicate hy]
      exact List.mem_singleton.mpr rfl
    · rw [if_pos h1, List.getD_eq_getElem _ _ (by simpa using hj),
        List.getElem_replicate]
      rfl

theorem addBiasRow_good {ar br : List ℚ} {K : Nat} (ha : ar.length = K)
    (hbr : br.length = K ∨ br.length = 1) :
    ∃ cr, addBiasRow ar br = some cr ∧ cr.length = K ∧
      ∀ j, j < K → cr.getD j 0 =
        ar.getD j 0 + br.getD (if br.length = 1 then 0 else j) 0 := by
  obtain ⟨br2, hbc, hlen2, -, hget⟩ := bcastTo_good (n := K) hbr
  refine ⟨List.zipWith (· + ·) ar br2, ?_, by simp [ha, hlen2], fun j hj => ?_⟩
  · unfold addBiasRow
    rw [ha, hbc]
    rfl
  · rw [getD_zipWith _ (by omega) (by omega) 0 0 0, hget j hj 0]

theorem mapM_id_eq_none {α : Type} {l : List (Option α)} (h : none ∈ l) :
    l.mapM id = none := by
  induction l with
  | nil => simp at h
  | cons x t ih =>
    rw [List.mapM_cons]
    rcases List.mem_cons.mp h with hx | ht
    · rw [← hx]
      rfl
    · cases x with
      | none => rfl
      | some v =>
        rw [ih ht]
        rfl

theorem addBias_good {a b : Mat} {Q K : Nat} (ha : rect a Q K) (hQ : 0 < Q)
    (hb1 : b.length = Q ∨ b.length = 1)
    (hb2 : ∀ r ∈ b, r.length = K ∨ r.length = 1) :
    ∃ c, addBias a b = some c ∧ rect c Q K ∧
      ∀ i j, i < Q → j < K →
        (c.getD i []).getD j 0 = (a.getD i []).getD j 0 + bcastEntry b i j := by
  obtain ⟨rows, hrows, hrl, hrmem, hrget⟩ := bcastTo_good (n := Q) hb1
  have hrows2 : ∀ r ∈ rows, r.length = K ∨ r.length = 1 :=
    fun r hr => hb2 r (hrmem r hr)
  have hpair : ∀ x ∈ a, ∀ y ∈ rows, addBiasRow x y =
      some (List.zipWith (· + ·) x ((bcastTo K y).getD [])) := by
    intro x hx y hy
    obtain ⟨y2, hby, -, -, -⟩ := bcastTo_good (n := K) (hrows2 y hy)
    unfold addBiasRow
    rw [ha.2 x hx, hby]
    rfl
  refine ⟨List.zipWith (fun x y => List.zipWith (· + ·) x
    ((bcastTo K y).getD [])) a rows, ?_, ⟨by simp [ha.1, hrl], ?_⟩,
    fun i j hi hj => ?_⟩
  · unfold addBias
    rw [ha.1, hrows]
    simp only [Option.bind_eq_bind, Option.some_bind]
    exact mapM_id_zipWith _ _ a rows hpair
  · intro row hrow
    rw [List.mem_iff_getElem] at hrow
    obtain ⟨i, hilen, rfl⟩ := hrow
    rw [List.getElem_zipWith]
    have hia : i < a.length := by simp at hilen; omega
    have hir : i < rows.length := by simp at hilen; omega
    obtain ⟨y2, hby, hyl, -, -⟩ := bcastTo_good (n := K)
      (hrows2 rows[i] (List.getElem_mem hir))
    rw [hby]
    simp [ha.2 a[i] (List.getElem_mem hia), hyl]
  · have hia : i < a.length := by rw [ha.1]; exact hi
    have hir : i < rows.length := by rw [hrl]; exact hi
    rw [getD_zipWith _ hia hir [] [] []]
    obtain ⟨y2, hby, hyl, -, hyget⟩ := bcastTo_good (n := K)
      (hrows2 (rows.getD i [])
        (by rw [List.getD_eq_getElem _ _ hir]; exact List.getElem_mem hir))
    have haK : (a.getD i []).length = K :=
      ha.2 _ (by rw [List.getD_eq_getElem _ _ hia]; exact List.getElem_mem hia)
    rw [hby]
    rw [show (some y2).getD ([] : List ℚ) = y2 from rfl]
    rw [getD_zipWith _ (by omega) (by omega) 0 0 0, hyget j hj 0]
    rw [hrget i hi []]
    rfl

theorem addBias_bad {a b : Mat} {Q K : Nat} (ha : rect a Q K) (hQ : 0 < Q)
    (hb : ¬((b.length = Q ∨ b.length = 1) ∧
      ∀ r ∈ b, r.length = K ∨ r.length = 1)) :
    addBias a b = none := by
  by_cases hb1 : b.length = Q ∨ b.length = 1
  · have hbad : ¬∀ r ∈ b, r.length = K ∨ r.length = 1 :=
      fun hB => hb ⟨hb1, hB⟩
    push_neg at hbad
    obtain ⟨r, hr, hrK, hr1⟩ := hbad
    obtain ⟨rows, hrows, hrl, -, hrget⟩ := bcastTo_good (n := Q) hb1
    have hidx : ∃ i, i < Q ∧ rows.getD i [] = r := by
      by_cases h1 : b.length = 1
      · obtain ⟨y, rfl⟩ := List.length_eq_one.mp h1
        rw [List.mem_singleton] at hr
        exact ⟨0, hQ, by rw [hrget 0 hQ [], if_pos h1, hr]; simp⟩
      · have hbQ : b.length = Q := hb1.resolve_right h1
        obtain ⟨i, hib, hri⟩ := List.mem_iff_getElem.mp hr
        refine ⟨i, by omega, ?_⟩
        rw [hrget i (by omega) [], if_neg h1, List.getD_eq_getElem _ _ hib, hri]
    obtain ⟨i, hiQ, hieq⟩ := hidx
    have hia : i < a.length := by rw [ha.1]; exact hiQ
    have hir : i < rows.length := by rw [hrl]; exact hiQ
    have hnone : none ∈ List.zipWith addBiasRow a rows := by
      rw [List.mem_iff_getElem]
      refine ⟨i, by simp [ha.1, hrl]; omega, ?_⟩
      rw [List.getElem_zipWith]
      have hra : rows[i] = r := by
        rw [← List.getD_eq_getElem _ ([] : List ℚ) hir, hieq]
      rw [hra]
      exact addBiasRow_bad
        (by rw [ha.2 a[i] (List.getElem_mem hia)]; exact hrK) hr1
    unfold addBias
    rw [ha.1, hrows]
    simp only [Option.bind_eq_bind, Option.some_bind]
    exact mapM_id_eq_none hnone
  · push_neg at hb1
    unfold addBias
    rw [ha.1, bcastTo_bad hb1.1 hb1.2]
    rfl

/-- C5: on a rectangular `[Q, K]` logit slice (with at least one query row),
the bias loop of `_attention` fails — the torch broadcast `RuntimeError`
standing for the spec's `ShapeError`, modelled as `none` — whenever some
bias's trailing two dimensions are neither equal to the matching extent nor
equal to 1; and when every bias is so shaped it succeeds and returns the
logits plus the sum of the broadcast biases, entrywise
`a i j + Σ_b bcastEntry b i j`, with no effect on the inputs (the embedding
is pure: the source's in-place adds write only the fresh logits buffer). -/
theorem c5_bias_combination {a : Mat} {Q K : Nat} (ha : rect a Q K)
    (hQ : 0 < Q) (bs : List Mat) :
    ((∃ b ∈ bs, ¬((b.length = Q ∨ b.length = 1) ∧
        ∀ r ∈ b, r.length = K ∨ r.length = 1)) →
      addBiases a bs = none) ∧
    ((∀ b ∈ bs, (b.length = Q ∨ b.length = 1) ∧
        ∀ r ∈ b, r.length = K ∨ r.length = 1) →
      ∃ c, addBiases a bs = some c ∧ rect c Q K ∧
        ∀ i j, i < Q → j < K →
          (c.getD i []).getD j 0 =
            (a.getD i []).getD j 0 +
              (bs.map fun b => bcastEntry b i j).sum) := by
  induction bs generalizing a ha with
  | nil =>
    refine ⟨fun h => ?_, fun _ => ⟨a, rfl, ha, by simp⟩⟩
    simp at h
  | cons b t ih =>
    constructor
    · rintro ⟨b0, hb0, hbad⟩
      rcases List.mem_cons.mp hb0 with rfl | hb0t
      · unfold addBiases
        rw [List.foldlM_cons, addBias_bad ha hQ hbad]
        rfl
      · by_cases hgood : (b.length = Q ∨ b.length = 1) ∧
            ∀ r ∈ b, r.length = K ∨ r.length = 1
        · obtain ⟨c, hc, hcr, -⟩ := addBias_good ha hQ hgood.1 hgood.2
          unfold addBiases
          rw [List.foldlM_cons, hc]
          simp only [Option.bind_eq_bind, Option.some_bind]
          exact (ih hcr).1 ⟨b0, hb0t, hbad⟩
        · unfold addBiases
          rw [List.foldlM_cons, addBias_bad ha hQ hgood]
          rfl
    · intro hall
      obtain ⟨c, hc, hcr, hce⟩ :=
        addBias_good ha hQ (hall b (by simp)).1 (hall b (by simp)).2
      obtain ⟨c2, hc2, hc2r, hc2e⟩ :=
        (ih hcr).2 fun b2 hb2 => hall b2 (by simp [hb2])
      refine ⟨c2, ?_, hc2r, fun i j hi hj => ?_⟩
      · unfold addBiases at hc2 ⊢
        rw [List.foldlM_cons, hc]
        simpa using hc2
      · rw [hc2e i j hi hj, hce i j hi hj]
        simp [add_assoc]

theorem c5_witness :
    addBiases [[1, 2]] [[[10, 20, 30]]] = none ∧
    ∃ c, addBiases [[1, 2]] [[[10, 20]], [[5]]] = some c ∧ rect c 1 2 ∧
      ∀ i j, i < 1 → j < 2 →
        (c.getD i []).getD j 0 =
          (([[1, 2]] : Mat).getD i []).getD j 0 +
            (([[[10, 20]], [[5]]] : List Mat).map
              fun b => bcastEntry b i j).sum := by
  constructor
  · exact (c5_bias_combination (Q := 1) (K := 2) (by decide) (by decide)
      [[[10, 20, 30]]]).1 ⟨[[10, 20, 30]], by simp, by decide⟩
  · exact (c5_bias_combination (Q := 1) (K := 2) (by decide) (by decide)
      [[[10, 20]], [[5]]]).2 (by decide)
